import Mathlib

/-!
Shallow embedding of the two core subsystems of this repository:

* the sliding-window map pointer of mapptr.c (struct hs_map, _hs_map_file,
  _hs_map_ptr), modelled over an explicit byte source and a descriptor whose
  true read position is tracked, with a read schedule that can inject short
  reads and read errors; and
* the signature loader of src/readsums.c (rs_loadsig_s_magic,
  rs_loadsig_s_blocklen, rs_loadsig_s_stronglen, rs_loadsig_s_weak,
  rs_loadsig_s_strong), together with spec-modelled versions of the scoop
  primitive, the 4-byte network-integer reader, the signature-table
  operations and the job driver, which are declared and called here but whose
  code is not part of this tree.

Machine integers are modelled as Nat/Int; offsets reachable through the public
entry points are non-negative, and the int-typed length in/out parameter of
_hs_map_ptr is modelled as Int because it can go negative.
-/

set_option maxHeartbeats 1000000
set_option linter.unusedVariables false

/-- Chunk size constant of mapptr.c (32*1024). -/
def CHUNK_SIZE : Nat := 32 * 1024

/-- Maximum map window size constant of mapptr.c (256*1024). -/
def MAX_MAP_SIZE : Nat := 256 * 1024

/-- State of the sliding window (struct hs_map in mapptr.c): backing buffer
P of allocated size P_SIZE, of which the first P_LEN bytes are valid file
data starting at file offset P_OFFSET; P_FD_OFFSET is the map's record of
the descriptor's read cursor. -/
structure HsMap where
  p : List Nat
  p_size : Nat
  p_len : Nat
  p_offset : Nat
  p_fd_offset : Nat
deriving DecidableEq

/-- Observable state of the underlying descriptor: its true read position.
The content of the byte source is a separate, immutable parameter. -/
structure FdState where
  pos : Nat
deriving DecidableEq

/-- Result of one fill loop (the read(2) do-while loop of _hs_map_ptr):
bytes accumulated, whether a zero-byte read (end of input) was observed,
and whether a read error was observed. -/
structure FillRes where
  total : Nat
  eof : Bool
  errored : Bool
deriving DecidableEq

/-- Outcome of one _hs_map_ptr call. view is the returned region (none
models a NULL return), starting at the returned pointer and extending to
the end of the backing buffer; len is the value of *len after the call;
reached_eof is the *reached_eof flag; ioError records whether the fill loop
hit a read error; einval records an errno = EINVAL failure; didSeek records
whether lseek was called; readReq is the absolute interval
(read_start, read_size) requested from the descriptor, when a read phase
was entered. -/
structure MapOut where
  view : Option (List Nat)
  len : Int
  reached_eof : Bool
  ioError : Bool
  einval : Bool
  didSeek : Bool
  readReq : Option (Nat × Nat)
deriving DecidableEq

/-- Fresh map as created by _hs_map_file: no buffer, all offsets zero. -/
def initMap : HsMap := ⟨[], 0, 0, 0, 0⟩

/-- Descriptor at position 0, as _hs_map_file assumes. -/
def initFd : FdState := ⟨0⟩

/-- Window start computation of _hs_map_ptr: offsets at most 2*CHUNK_SIZE
map to 0, larger offsets are pulled back by 2*CHUNK_SIZE and aligned down
to a CHUNK_SIZE boundary (the source uses a power-of-two mask). -/
def windowStart (offset : Nat) : Nat :=
  if 2 * CHUNK_SIZE < offset then ((offset - 2 * CHUNK_SIZE) / CHUNK_SIZE) * CHUNK_SIZE
  else 0

/-- Window size computation of _hs_map_ptr: MAX_MAP_SIZE, enlarged when the
requested range extends past windowStart + MAX_MAP_SIZE. -/
def windowSizeI (offset : Nat) (len : Int) : Int :=
  if (windowStart offset : Int) + (MAX_MAP_SIZE : Int) < (offset : Int) + len
  then (offset : Int) + len - (windowStart offset : Int)
  else (MAX_MAP_SIZE : Int)

/-- The read(2) fill loop of _hs_map_ptr. The schedule models the behavior
of successive read calls: an entry none is a read error (nread < 0), an
entry some k is a read delivering at most k bytes; once the schedule is
exhausted the descriptor behaves like an honest file, delivering everything
available up to the amount requested, then reporting end of input with a
zero-byte read. Reads deliver consecutive bytes of content starting at
startPos + total. -/
def fillLoop (content : List Nat) (startPos readSize : Nat) :
    List (Option Nat) → Nat → FillRes
  | [], total =>
    let want := readSize - total
    let avail := content.length - (startPos + total)
    let n := min want avail
    if want = 0 then ⟨total, false, false⟩
    else if n = 0 then ⟨total, true, false⟩
    else if total + n < readSize then ⟨total + n, true, false⟩
    else ⟨total + n, false, false⟩
  | none :: _, total => ⟨total, false, true⟩
  | some k :: rest, total =>
    let want := readSize - total
    let avail := content.length - (startPos + total)
    let n := min (min k want) avail
    if want = 0 then ⟨total, false, false⟩
    else if n = 0 then ⟨total, true, false⟩
    else if total + n < readSize then fillLoop content startPos readSize rest (total + n)
    else ⟨total + n, false, false⟩

/-- Model of _hs_map_ptr (mapptr.c). Returns the updated map, the updated
descriptor state and the call outcome. content is the true content of the
byte source behind the descriptor; sched is the read schedule for this
call's fill loop. The branches follow the source: EINVAL on *len == 0;
fast path when the requested range is inside the resident region; otherwise
window computation, reallocation (realloc preserves the old bytes), overlap
reuse via memmove, the internal-consistency NULL return on a non-positive
read size, a seek only when the recorded cursor disagrees with the read
start, the fill loop, and the bookkeeping and length-capping updates. -/
def hs_map_ptr (content : List Nat) (sched : List (Option Nat)) (m : HsMap)
    (fd : FdState) (offset : Nat) (len : Int) :
    HsMap × FdState × MapOut :=
  if len = 0 then
    (m, fd, ⟨none, len, false, false, true, false, none⟩)
  else if m.p_offset ≤ offset ∧ (offset : Int) + len ≤ (m.p_offset : Int) + (m.p_len : Int) then
    (m, fd, ⟨some (m.p.drop (offset - m.p_offset)), len, false, false, false, false, none⟩)
  else
    let ws := windowStart offset
    let wsize := (windowSizeI offset len).toNat
    let p1 := if m.p_size < wsize then m.p ++ List.replicate (wsize - m.p_size) 0 else m.p
    let psize1 := if m.p_size < wsize then wsize else m.p_size
    let t :=
      if m.p_offset ≤ ws ∧ ws < m.p_offset + m.p_len ∧ m.p_offset + m.p_len ≤ ws + wsize then
        (m.p_offset + m.p_len, m.p_offset + m.p_len - ws,
          (p1.drop (m.p_len - (m.p_offset + m.p_len - ws))).take (m.p_offset + m.p_len - ws) ++
            p1.drop (m.p_offset + m.p_len - ws))
      else (ws, 0, p1)
    let read_start := t.1
    let ro := t.2.1
    let p2 := t.2.2
    let read_sizeI : Int := (wsize : Int) - (ro : Int)
    if read_sizeI ≤ 0 then
      ({ p := p2, p_size := psize1, p_len := m.p_len, p_offset := m.p_offset,
         p_fd_offset := m.p_fd_offset }, fd,
       ⟨none, len, false, false, false, false, none⟩)
    else
      let read_size := read_sizeI.toNat
      let didSeek : Bool := decide (¬ m.p_fd_offset = read_start)
      let fd1 : FdState := if didSeek then ⟨read_start⟩ else fd
      let fill := fillLoop content fd1.pos read_size sched 0
      let fd2 : FdState := ⟨fd1.pos + fill.total⟩
      let pfd := (if didSeek then read_start else m.p_fd_offset) + fill.total
      let delivered := (content.drop fd1.pos).take fill.total
      let p3 := p2.take ro ++ delivered ++ p2.drop (ro + fill.total)
      let plen2 := ro + fill.total
      let availI : Int := (plen2 : Int) - ((offset : Int) - (ws : Int))
      let lenOut := if availI < len then availI else len
      ({ p := p3, p_size := psize1, p_len := plen2, p_offset := ws, p_fd_offset := pfd }, fd2,
       ⟨some (p3.drop (offset - ws)), lenOut, fill.eof, fill.errored, false, didSeek,
        some (read_start, read_size)⟩)

/-- Run a sequence of acquire calls against an honest descriptor (empty read
schedule), starting from a given map and descriptor state, collecting each
call's request and outcome. -/
def runAcquires (content : List Nat) :
    List (Nat × Int) → HsMap → FdState → HsMap × FdState × List ((Nat × Int) × MapOut)
  | [], m, fd => (m, fd, [])
  | (off, l) :: rest, m, fd =>
    let r := hs_map_ptr content [] m fd off l
    let rr := runAcquires content rest r.1 r.2.1
    (rr.1, rr.2.1, ((off, l), r.2.2) :: rr.2.2)

/-- The forward-only calling contract of the map pointer: requested offsets
never decrease along the call sequence. -/
def ForwardOnly : List (Nat × Int) → Prop
  | [] => True
  | _ :: [] => True
  | a :: b :: rest => a.1 ≤ b.1 ∧ ForwardOnly (b :: rest)

instance instForwardOnlyDec : ∀ reqs, Decidable (ForwardOnly reqs)
  | [] => inferInstanceAs (Decidable True)
  | _ :: [] => inferInstanceAs (Decidable True)
  | a :: b :: rest =>
    haveI := instForwardOnlyDec (b :: rest)
    inferInstanceAs (Decidable (a.1 ≤ b.1 ∧ ForwardOnly (b :: rest)))

/-- The read requests (start, size) of a run, threaded against a cursor:
each request starts at or after the cursor, and the cursor then advances to
the end of the source bytes that request can actually deliver. -/
def ReadChain (content : List Nat) : Nat → List (Nat × Nat) → Prop
  | _, [] => True
  | c, (a, b) :: rest => c ≤ a ∧ ReadChain content (a + min b (content.length - a)) rest

/-- Validity of the resident region: each of the first p_len buffer bytes
equals the true source byte at the corresponding absolute offset. -/
def BufValid (content : List Nat) (m : HsMap) : Prop :=
  ∀ i, i < m.p_len → m.p[i]? = content[m.p_offset + i]?

/-- Invariant tying a map to the descriptor it owns: the buffer bounds are
consistent, the resident region holds true source bytes, the map's recorded
cursor equals the descriptor's true position, and the cursor sits exactly at
the end of the resident region. -/
structure MapInv (content : List Nat) (m : HsMap) (fd : FdState) : Prop where
  hlen : m.p.length = m.p_size
  hsz : m.p_len ≤ m.p_size
  hbuf : BufValid content m
  hfd : fd.pos = m.p_fd_offset
  hcur : m.p_fd_offset = m.p_offset + m.p_len

/-! ## Signature loader (src/readsums.c) -/

/-- Result codes of librsync's rs_result that the loader uses. -/
inductive RsResult where
  | RS_DONE
  | RS_BLOCKED
  | RS_RUNNING
  | RS_INPUT_ENDED
  | RS_CORRUPT
deriving DecidableEq

export RsResult (RS_DONE RS_BLOCKED RS_RUNNING RS_INPUT_ENDED RS_CORRUPT)

/-- The states of the signature loader, one per state function of
readsums.c (function-pointer dispatch modelled as a tagged enumeration). -/
inductive SigState where
  | s_magic
  | s_blocklen
  | s_stronglen
  | s_weak
  | s_strong
deriving DecidableEq

/-- In-memory signature table (rs_signature_t): format identifier, block
length, strong-sum length, and the ordered block records of
(weak checksum, strong checksum) pairs. -/
structure RsSignature where
  magic : Int
  block_len : Int
  strong_sum_len : Int
  blocks : List (Int × List Nat)
deriving DecidableEq

/-- The job state (rs_job_t fields used by the signature loader): current
state, unconsumed scoop input, whether input has ended, the parsed header
fields, the last weak sum read, the optional signature-size hint, the
block-count statistic, and the signature table under construction. -/
structure Job where
  statefn : SigState
  input : List Nat
  eofIn : Bool
  magic : Int
  block_len : Int
  strong_sum_len : Int
  weak_sig : Int
  sig_file_bytes : Nat
  sig_blocks : Nat
  signature : RsSignature
deriving DecidableEq

/-- Maximum strong-sum length constant (RS_MAX_STRONG_SUM_LENGTH). -/
def RS_MAX_STRONG_SUM_LENGTH : Int := 32

/-- Reinterpretation of a 32-bit unsigned value as a signed int, as happens
when the network-order word is stored into the int l of the state
functions. -/
def toInt32 (n : Nat) : Int :=
  if n < 2 ^ 31 then (n : Int) else (n : Int) - 2 ^ 32

/-- Modelled from the spec: the scoop primitive rs_scoop_read (stream.c is
not under src/). Per section 4.2, it yields exactly n contiguous bytes,
consuming them, or reports blocked, or reports that input ended cleanly;
zero bytes available at end of input is the clean end, while some but not
enough bytes is always blocked. -/
def rs_scoop_read (job : Job) (n : Nat) : RsResult × List Nat × Job :=
  if n ≤ job.input.length then
    (RS_DONE, job.input.take n, { job with input := job.input.drop n })
  else if job.input.length = 0 ∧ job.eofIn then (RS_INPUT_ENDED, [], job)
  else (RS_BLOCKED, [], job)

/-- Big-endian byte-list decoding. -/
def beDecode (bs : List Nat) : Nat := bs.foldl (fun a b => a * 256 + b) 0

/-- Modelled from the spec: the 4-byte network-order integer reader
rs_suck_n4 (netint.c is not under src/), the specialization of the scoop
primitive used for every magic and length field; the resulting 32-bit word
lands in a signed int. -/
def rs_suck_n4 (job : Job) : RsResult × Int × Job :=
  let r := rs_scoop_read job 4
  (r.1, toInt32 (beDecode r.2.1), r.2.2)

/-- Modelled from the spec: rs_signature_add_block (sumset.c is not under
src/) appends one (weak, strong) record to the signature table. -/
def rs_signature_add_block (sig : RsSignature) (weak : Int) (strong : List Nat) : RsSignature :=
  { sig with blocks := sig.blocks ++ [(weak, strong)] }

/-- Modelled from the spec: rs_signature_init (sumset.c is not under src/)
initializes the signature table with the parsed header fields and an empty
record sequence; the record-count hint only pre-sizes storage. -/
def rs_signature_init (magic block_len strong_sum_len hint : Int) : RsResult × RsSignature :=
  (RS_DONE,
   { magic := magic, block_len := block_len, strong_sum_len := strong_sum_len, blocks := [] })

/-- State function rs_loadsig_s_weak of readsums.c: read a 4-byte weak sum;
a clean end of input here is the valid termination (RS_DONE); otherwise
store the weak sum and move to the strong state. -/
def rs_loadsig_s_weak (job : Job) : RsResult × Job :=
  let r := rs_suck_n4 job
  if r.1 ≠ RS_DONE then
    if r.1 = RS_INPUT_ENDED then (RS_DONE, r.2.2) else (r.1, r.2.2)
  else (RS_RUNNING, { r.2.2 with weak_sig := r.2.1, statefn := SigState.s_strong })

/-- State function rs_loadsig_s_strong of readsums.c: read
strong_sum_len bytes (taken from the signature table being built), append
the (weak, strong) record, bump the block statistic, return to the weak
state. -/
def rs_loadsig_s_strong (job : Job) : RsResult × Job :=
  let r := rs_scoop_read job job.signature.strong_sum_len.toNat
  if r.1 ≠ RS_DONE then (r.1, r.2.2)
  else
    (RS_RUNNING,
     { r.2.2 with
       signature := rs_signature_add_block r.2.2.signature r.2.2.weak_sig r.2.1,
       sig_blocks := r.2.2.sig_blocks + 1,
       statefn := SigState.s_weak })

/-- State function rs_loadsig_s_stronglen of readsums.c: read the 4-byte
strong-sum length, reject implausible values as RS_CORRUPT, record it,
compute the record-count estimate from the optional byte-count hint,
initialize the signature, and move to the weak state. -/
def rs_loadsig_s_stronglen (job : Job) : RsResult × Job :=
  let r := rs_suck_n4 job
  if r.1 ≠ RS_DONE then (r.1, r.2.2)
  else if r.2.1 < 0 ∨ RS_MAX_STRONG_SUM_LENGTH < r.2.1 then (RS_CORRUPT, r.2.2)
  else
    let j1 : Job := { r.2.2 with strong_sum_len := r.2.1 }
    let hint : Int :=
      if j1.sig_file_bytes ≠ 0 then Int.tdiv ((j1.sig_file_bytes : Int) - 12) (4 + r.2.1)
      else 0
    let ri := rs_signature_init j1.magic j1.block_len r.2.1 hint
    if ri.1 ≠ RS_DONE then (ri.1, j1)
    else (RS_RUNNING, { j1 with signature := ri.2, statefn := SigState.s_weak })

/-- State function rs_loadsig_s_blocklen of readsums.c: read the 4-byte
block length, reject values below 1 as RS_CORRUPT, record it, and move to
the strong-sum-length state. -/
def rs_loadsig_s_blocklen (job : Job) : RsResult × Job :=
  let r := rs_suck_n4 job
  if r.1 ≠ RS_DONE then (r.1, r.2.2)
  else if r.2.1 < 1 then (RS_CORRUPT, r.2.2)
  else (RS_RUNNING, { r.2.2 with block_len := r.2.1, statefn := SigState.s_stronglen })

/-- State function rs_loadsig_s_magic of readsums.c: read the 4-byte magic,
record it, and move to the block-length state. -/
def rs_loadsig_s_magic (job : Job) : RsResult × Job :=
  let r := rs_suck_n4 job
  if r.1 ≠ RS_DONE then (r.1, r.2.2)
  else (RS_RUNNING, { r.2.2 with magic := r.2.1, statefn := SigState.s_blocklen })

/-- One driving step: dispatch on the current state, as the function-pointer
call through job->statefn does. -/
def rs_job_step (job : Job) : RsResult × Job :=
  match job.statefn with
  | SigState.s_magic => rs_loadsig_s_magic job
  | SigState.s_blocklen => rs_loadsig_s_blocklen job
  | SigState.s_stronglen => rs_loadsig_s_stronglen job
  | SigState.s_weak => rs_loadsig_s_weak job
  | SigState.s_strong => rs_loadsig_s_strong job

/-- Rank used by the termination measure: the strong state can consume zero
bytes (when the strong-sum length is 0) but always falls back to the weak
state, which needs input to keep running. -/
def sigRank : SigState → Nat
  | SigState.s_strong => 1
  | _ => 0

/-- Termination measure for driving a job: every step that reports
RS_RUNNING strictly decreases it. -/
def jobPhi (job : Job) : Nat := 2 * job.input.length + sigRank job.statefn

/-- Fuel-indexed driver loop: invoke the current state function while it
reports RS_RUNNING. Exhausted fuel is reported as RS_RUNNING, which the
sufficient-fuel wrapper below never produces. -/
def driveFuel : Nat → Job → RsResult × Job
  | 0, job => (RS_RUNNING, job)
  | fuel + 1, job =>
    match rs_job_step job with
    | (RS_RUNNING, j) => driveFuel fuel j
    | r => r

/-- Modelled from the spec: the job driver (rs_job_iter / rs_job_drive of
job.c, not under src/): run the current state function repeatedly, with no
hidden recursion, until it reports something other than running. jobPhi
strictly decreases on running steps, so jobPhi + 1 units of fuel always
suffice. -/
def rs_job_drive (job : Job) : RsResult × Job := driveFuel (jobPhi job + 1) job

/-- Job as set up by rs_loadsig_begin: initial state s_magic, a fresh empty
signature, with the given pending input and end-of-input flag. -/
def initLoadsigJob (bytes : List Nat) (eof : Bool) : Job :=
  { statefn := SigState.s_magic, input := bytes, eofIn := eof, magic := 0, block_len := 0,
    strong_sum_len := 0, weak_sig := 0, sig_file_bytes := 0, sig_blocks := 0,
    signature := { magic := 0, block_len := 0, strong_sum_len := 0, blocks := [] } }

/-- Feed the whole wire stream at once and drive to completion. -/
def runAll (bytes : List Nat) : RsResult × Job :=
  rs_job_drive (initLoadsigJob bytes true)

/-- Feed one more byte to a job that is still blocked and drive it; once a
job has reported a result other than blocked it is final and further bytes
are ignored (the job is permanently finished or failed). -/
def feed1 (st : RsResult × Job) (b : Nat) : RsResult × Job :=
  if st.1 = RS_BLOCKED then rs_job_drive { st.2 with input := st.2.input ++ [b] }
  else st

/-- Signal end of input to a still-blocked job and drive it one final
time; a job that already reported a final result is left as is. -/
def finishJob (st : RsResult × Job) : RsResult × Job :=
  if st.1 = RS_BLOCKED then rs_job_drive { st.2 with eofIn := true } else st

/-- Feed the wire stream one byte at a time, driving the job after every
byte, then signal end of input and drive once more. -/
def runByByte (bytes : List Nat) : RsResult × Job :=
  finishJob (bytes.foldl feed1 (RS_BLOCKED, initLoadsigJob [] false))

/-- The components of a job that the wire stream determines: everything
except the unconsumed input and the end-of-input flag. -/
def Job.core (j : Job) : SigState × Int × Int × Int × Int × Nat × RsSignature :=
  (j.statefn, j.magic, j.block_len, j.strong_sum_len, j.weak_sig, j.sig_blocks, j.signature)

/-- Big-endian encoding of a 32-bit value, as written by the signature
generator on the wire. -/
def be4 (n : Nat) : List Nat :=
  [n / 2 ^ 24 % 256, n / 2 ^ 16 % 256, n / 2 ^ 8 % 256, n % 256]

/-- Wire encoding of the block records: each record is the 4-byte weak sum
followed by the strong sum bytes. -/
def encodeRecords (rs : List (Nat × List Nat)) : List Nat :=
  rs.foldr (fun p acc => be4 p.1 ++ p.2 ++ acc) []

/-- Wire encoding of a whole signature: magic, block length, strong-sum
length, then the records. -/
def encodeSig (mgc bl sl : Nat) (rs : List (Nat × List Nat)) : List Nat :=
  be4 mgc ++ be4 bl ++ be4 sl ++ encodeRecords rs

/-- Well-formedness of a signature wire stream, per section 6 of the spec:
all header words are 32-bit, the block length decodes to at least 1, the
strong-sum length decodes into [0, RS_MAX_STRONG_SUM_LENGTH], and every
record's weak sum is 32-bit with a strong sum of exactly the declared
length. -/
def WFSig (mgc bl sl : Nat) (rs : List (Nat × List Nat)) : Prop :=
  mgc < 2 ^ 32 ∧ bl < 2 ^ 32 ∧ sl < 2 ^ 32 ∧ 1 ≤ toInt32 bl ∧ 0 ≤ toInt32 sl ∧
    toInt32 sl ≤ RS_MAX_STRONG_SUM_LENGTH ∧
    ∀ q ∈ rs, q.1 < 2 ^ 32 ∧ q.2.length = (toInt32 sl).toNat

instance (mgc bl sl : Nat) (rs : List (Nat × List Nat)) : Decidable (WFSig mgc bl sl rs) :=
  inferInstanceAs (Decidable (mgc < 2 ^ 32 ∧ bl < 2 ^ 32 ∧ sl < 2 ^ 32 ∧ 1 ≤ toInt32 bl ∧
    0 ≤ toInt32 sl ∧ toInt32 sl ≤ RS_MAX_STRONG_SUM_LENGTH ∧
    ∀ q ∈ rs, q.1 < 2 ^ 32 ∧ q.2.length = (toInt32 sl).toNat))

/-! ## List helpers -/

theorem take_eq_of_getElem? {l1 l2 : List Nat} (n : Nat)
    (h : ∀ i, i < n → l1[i]? = l2[i]?) : l1.take n = l2.take n := by
  apply List.ext_getElem?
  intro i
  by_cases hi : i < n
  · rw [List.getElem?_take_of_lt hi, List.getElem?_take_of_lt hi, h i hi]
  · have h1 : (l1.take n).length ≤ i := by
      simp only [List.length_take]
      omega
    have h2 : (l2.take n).length ≤ i := by
      simp only [List.length_take]
      omega
    rw [List.getElem?_eq_none_iff.mpr h1, List.getElem?_eq_none_iff.mpr h2]

/-! ## Window computation lemmas -/

theorem windowStart_le (offset : Nat) : windowStart offset ≤ offset := by
  unfold windowStart
  split
  · calc ((offset - 2 * CHUNK_SIZE) / CHUNK_SIZE) * CHUNK_SIZE
        ≤ offset - 2 * CHUNK_SIZE := Nat.div_mul_le_self _ _
      _ ≤ offset := Nat.sub_le _ _
  · exact Nat.zero_le _

theorem windowStart_mono {a b : Nat} (h : a ≤ b) : windowStart a ≤ windowStart b := by
  unfold windowStart
  split <;> split
  · exact Nat.mul_le_mul_right _ (Nat.div_le_div_right (by omega))
  · omega
  · exact Nat.zero_le _
  · exact Nat.zero_le _

theorem windowSize_ge (offset : Nat) (len : Int) :
    MAX_MAP_SIZE ≤ (windowSizeI offset len).toNat ∧
      (offset : Int) + len ≤ (windowStart offset : Int) + ((windowSizeI offset len).toNat : Int) := by
  unfold windowSizeI
  split
  · constructor
    · omega
    · omega
  · constructor
    · omega
    · omega

/-! ## Fill loop lemmas (honest schedule) -/

theorem fillLoop_nil_total (content : List Nat) (startPos readSize : Nat) :
    (fillLoop content startPos readSize [] 0).total =
      min readSize (content.length - startPos) := by
  simp only [fillLoop]
  split_ifs <;> simp_all

theorem fillLoop_nil_eof (content : List Nat) (startPos readSize : Nat) (h : 0 < readSize) :
    (fillLoop content startPos readSize [] 0).eof =
      decide (content.length - startPos < readSize) := by
  simp only [fillLoop]
  split_ifs <;> simp_all

theorem fillLoop_nil_err (content : List Nat) (startPos readSize : Nat) :
    (fillLoop content startPos readSize [] 0).errored = false := by
  simp only [fillLoop]
  split_ifs <;> rfl

/-! ## Buffer validity lemmas -/

theorem bufValid_offset_lt {content : List Nat} {m : HsMap}
    (hlen : m.p.length = m.p_size) (hsz : m.p_len ≤ m.p_size) (hbuf : BufValid content m)
    {i : Nat} (hi : i < m.p_len) : m.p_offset + i < content.length := by
  have h1 := hbuf i hi
  have h2 : i < m.p.length := by omega
  rw [List.getElem?_eq_getElem h2] at h1
  have h3 : content[m.p_offset + i]?.isSome = true := by
    rw [← h1]
    rfl
  by_contra hc
  rw [List.getElem?_eq_none_iff.mpr (by omega)] at h3
  exact Bool.noConfusion h3

theorem write_buf_valid (content p2 : List Nat) (ws ro total rdst : Nat)
    (hp2 : ∀ i, i < ro → p2[i]? = content[ws + i]?)
    (hrd : rdst = ws + ro)
    (htot : total ≤ content.length - rdst)
    (hro : ro ≤ p2.length) :
    ∀ i, i < ro + total →
      (p2.take ro ++ (content.drop rdst).take total ++ p2.drop (ro + total))[i]? =
        content[ws + i]? := by
  intro i hi
  have hlentake : (p2.take ro).length = ro := by
    simp only [List.length_take]
    omega
  have hlendel : ((content.drop rdst).take total).length = total := by
    simp only [List.length_take, List.length_drop]
    omega
  by_cases hc : i < ro
  · rw [List.getElem?_append_left (by rw [List.length_append, hlentake, hlendel]; omega),
      List.getElem?_append_left (by rw [hlentake]; omega),
      List.getElem?_take_of_lt hc]
    exact hp2 i hc
  · have hc2 : i - ro < total := by omega
    rw [List.getElem?_append_left (by rw [List.length_append, hlentake, hlendel]; omega),
      List.getElem?_append_right (by rw [hlentake]; omega), hlentake,
      List.getElem?_take_of_lt hc2, List.getElem?_drop]
    congr 1
    omega

/-- Rewriting helper: the source's length-capping conditional is a minimum. -/
theorem ite_lt_min (a b : Int) : (if a < b then a else b) = min a b := by
  rw [min_def]
  split_ifs <;> omega

/-- The seek-or-not conditional always leaves the descriptor at the read
start: either a seek moved it there, or it was already there. -/
theorem seek_pos (a b : Nat) :
    (if decide (¬ a = b) = true then (⟨b⟩ : FdState) else ⟨a⟩).pos = b := by
  by_cases h : a = b <;> simp [h]

/-- Same fact for the recorded cursor value. -/
theorem seek_val (a b : Nat) :
    (if decide (¬ a = b) = true then b else a) = b := by
  by_cases h : a = b <;> simp [h]

/-- Assembly of the slow-path facts of hs_map_ptr, shared by the
overlap-reuse and fresh-read branches. The parameters name the computed
quantities: window start ws, window size wsize, reused-byte count ro, new
allocation size psize1, read start rdst, post-move buffer p2, and the seek
flag d; the hypotheses record what each branch establishes about them. -/
theorem hs_slow_assemble (content : List Nat) (m : HsMap) (fd : FdState)
    (offset : Nat) (len : Int)
    (ws wsize ro psize1 rdst : Nat) (p2 : List Nat) (d : Bool)
    {m' : HsMap} {fd' : FdState} {out : MapOut}
    (hlen0 : ¬ len = 0)
    (h1 : ¬ (m.p_offset ≤ offset ∧
      (offset : Int) + len ≤ (m.p_offset : Int) + (m.p_len : Int)))
    (hwsle : ws ≤ offset)
    (hw2 : (offset : Int) + len ≤ (ws : Int) + (wsize : Int))
    (hro : ro < wsize)
    (hrd : rdst = ws + ro)
    (hp2len : p2.length = psize1)
    (hwp : wsize ≤ psize1)
    (hp2get : ∀ i, i < ro → p2[i]? = content[ws + i]?)
    (hd : d = true ↔ ¬ m.p_fd_offset = rdst)
    (hfwd : m.p_offset ≤ ws → m.p_offset + m.p_len ≤ rdst)
    (hrdJ : rdst ≤ content.length ∨ ro = 0)
    (hm' : m' = ⟨p2.take ro ++
        (content.drop rdst).take (min (wsize - ro) (content.length - rdst)) ++
        p2.drop (ro + min (wsize - ro) (content.length - rdst)), psize1,
        ro + min (wsize - ro) (content.length - rdst), ws,
        rdst + min (wsize - ro) (content.length - rdst)⟩)
    (hfd' : fd' = ⟨rdst + min (wsize - ro) (content.length - rdst)⟩)
    (hout : out = ⟨some ((p2.take ro ++
        (content.drop rdst).take (min (wsize - ro) (content.length - rdst)) ++
        p2.drop (ro + min (wsize - ro) (content.length - rdst))).drop (offset - ws)),
        min (((ro + min (wsize - ro) (content.length - rdst) : Nat) : Int) -
          ((offset : Int) - (ws : Int))) len,
        decide (content.length - rdst < wsize - ro), false, false, d,
        some (rdst, wsize - ro)⟩) :
    MapInv content m' fd' ∧
    (∀ v, out.view = some v →
      v.take out.len.toNat = (content.drop offset).take out.len.toNat) ∧
    (∀ a b, out.readReq = some (a, b) → (out.didSeek = true ↔ ¬ m.p_fd_offset = a)) ∧
    (out.readReq = none → out.didSeek = false ∧ m' = m ∧ fd' = fd) ∧
    (m.p_offset ≤ ws →
      ∀ a b, out.readReq = some (a, b) → m.p_offset + m.p_len ≤ a) ∧
    ((¬ len = 0 ∧ m.p_offset ≤ offset ∧
        (offset : Int) + len ≤ (m.p_offset : Int) + (m.p_len : Int)) →
      out.reached_eof = false ∧ m' = m ∧ fd' = fd) ∧
    (out.reached_eof = true → ∃ a b, out.readReq = some (a, b) ∧ content.length < a + b) ∧
    (0 < len → (content.length : Int) < (offset : Int) + len →
      ws ≤ content.length →
      out.len = (content.length : Int) - (offset : Int) ∧ out.reached_eof = true) ∧
    out.ioError = false ∧
    (m'.p_offset = m.p_offset ∨ m'.p_offset = ws) ∧
    (∀ a b, out.readReq = some (a, b) →
      m'.p_fd_offset = a + min b (content.length - a)) := by
  subst hm' hfd' hout
  set T := min (wsize - ro) (content.length - rdst) with hT
  have hTle : T ≤ wsize - ro := Nat.min_le_left _ _
  have hTle2 : T ≤ content.length - rdst := Nat.min_le_right _ _
  have hroT : ro + T ≤ wsize := by omega
  have hnew_buf := write_buf_valid content p2 ws ro T rdst hp2get hrd hTle2 (by omega)
  have hp3len : (p2.take ro ++ (content.drop rdst).take T ++ p2.drop (ro + T)).length
      = psize1 := by
    simp only [List.length_append, List.length_take, List.length_drop]
    omega
  refine ⟨⟨hp3len, by dsimp only; omega, ?_, rfl, by dsimp only; omega⟩, ?_, ?_, ?_, ?_, ?_,
    ?_, ?_, rfl, Or.inr rfl, ?_⟩
  · intro i hi
    dsimp only at hi ⊢
    rw [hnew_buf i hi]
  · intro v hv
    have hv2 : v = (p2.take ro ++ (content.drop rdst).take T ++ p2.drop (ro + T)).drop
        (offset - ws) := by
      exact (Option.some.injEq _ _ ▸ hv).symm
    subst hv2
    apply take_eq_of_getElem?
    intro i hi
    dsimp only at hi
    have hidx : (offset - ws) + i < ro + T := by omega
    rw [List.getElem?_drop, List.getElem?_drop, hnew_buf _ hidx]
    congr 1
    omega
  · intro a b hab
    dsimp only at hab
    have ha : a = rdst := by
      have := (Option.some.injEq _ _ ▸ hab)
      exact (congrArg Prod.fst this).symm
    subst ha
    exact hd
  · intro h
    exact Option.noConfusion h
  · intro hpo a b hab
    have ha : a = rdst := by
      have := (Option.some.injEq _ _ ▸ hab)
      exact (congrArg Prod.fst this).symm
    subst ha
    exact hfwd hpo
  · intro hf
    exact absurd ⟨hf.2.1, hf.2.2⟩ h1
  · intro he
    refine ⟨rdst, wsize - ro, rfl, ?_⟩
    dsimp only at he
    rw [decide_eq_true_eq] at he
    omega
  · intro hl hover hwsL
    have hrdstL : rdst ≤ content.length := by
      rcases hrdJ with h | h
      · exact h
      · omega
    have hTfull : T = content.length - rdst := by omega
    constructor
    · dsimp only
      omega
    · dsimp only
      rw [decide_eq_true_eq]
      omega
  · intro a b hab
    dsimp only at hab
    have hin := Option.some.injEq _ _ ▸ hab
    have ha : a = rdst := (congrArg Prod.fst hin).symm
    have hb : b = wsize - ro := (congrArg Prod.snd hin).symm
    subst ha hb
    dsimp only

/-- Central specification of one hs_map_ptr call against an honest
descriptor. Under the map invariant it proves, in order: preservation of
the invariant; correctness of the returned view against the true source
content; that a seek happens exactly when the recorded cursor differs from
the read start; that calls with no read phase change nothing; that under
forward-only access every read request starts at or after the end of the
already-resident data; that fast-path calls report no end of input and do
not touch any state; that the end-of-input flag implies the read request
ran past the end of the source; the EOF-capping equation for requests past
the end of a source whose window start is still inside the source; that an
honest descriptor produces no I/O error; and that the resident window start
either stays or becomes the computed window start. -/
theorem hs_map_ptr_spec (content : List Nat) (m : HsMap) (fd : FdState)
    (offset : Nat) (len : Int) (m' : HsMap) (fd' : FdState) (out : MapOut)
    (inv : MapInv content m fd)
    (heq : hs_map_ptr content [] m fd offset len = (m', fd', out)) :
    MapInv content m' fd' ∧
    (∀ v, out.view = some v →
      v.take out.len.toNat = (content.drop offset).take out.len.toNat) ∧
    (∀ a b, out.readReq = some (a, b) → (out.didSeek = true ↔ ¬ m.p_fd_offset = a)) ∧
    (out.readReq = none → out.didSeek = false ∧ m' = m ∧ fd' = fd) ∧
    (m.p_offset ≤ windowStart offset →
      ∀ a b, out.readReq = some (a, b) → m.p_offset + m.p_len ≤ a) ∧
    ((¬ len = 0 ∧ m.p_offset ≤ offset ∧
        (offset : Int) + len ≤ (m.p_offset : Int) + (m.p_len : Int)) →
      out.reached_eof = false ∧ m' = m ∧ fd' = fd) ∧
    (out.reached_eof = true → ∃ a b, out.readReq = some (a, b) ∧ content.length < a + b) ∧
    (0 < len → (content.length : Int) < (offset : Int) + len →
      windowStart offset ≤ content.length →
      out.len = (content.length : Int) - (offset : Int) ∧ out.reached_eof = true) ∧
    out.ioError = false ∧
    (m'.p_offset = m.p_offset ∨ m'.p_offset = windowStart offset) ∧
    (∀ a b, out.readReq = some (a, b) →
      m'.p_fd_offset = a + min b (content.length - a)) := by
  have hwsle := windowStart_le offset
  obtain ⟨hw1, hw2⟩ := windowSize_ge offset len
  by_cases h0 : len = 0
  · unfold hs_map_ptr at heq
    rw [if_pos h0] at heq
    cases heq
    dsimp only
    refine ⟨inv, ?_, ?_, ?_, ?_, ?_, ?_, ?_, rfl, Or.inl rfl, ?_⟩
    · intro v hv
      exact Option.noConfusion hv
    · intro a b hab
      exact Option.noConfusion hab
    · intro _
      exact ⟨rfl, rfl, rfl⟩
    · intro _ a b hab
      exact Option.noConfusion hab
    · intro h
      exact absurd h0 h.1
    · intro h
      exact Bool.noConfusion h
    · intro hl
      omega
    · intro a b hab
      exact Option.noConfusion hab
  · by_cases h1 : m.p_offset ≤ offset ∧
        (offset : Int) + len ≤ (m.p_offset : Int) + (m.p_len : Int)
    · unfold hs_map_ptr at heq
      rw [if_neg h0, if_pos h1] at heq
      cases heq
      dsimp only
      refine ⟨inv, ?_, ?_, ?_, ?_, ?_, ?_, ?_, rfl, Or.inl rfl, ?_⟩
      · intro v hv
        have hv2 : v = m.p.drop (offset - m.p_offset) := by
          exact (Option.some.injEq _ _ ▸ hv).symm
        subst hv2
        apply take_eq_of_getElem?
        intro i hi
        rw [List.getElem?_drop, List.getElem?_drop]
        have hidx : (offset - m.p_offset) + i < m.p_len := by omega
        rw [inv.hbuf _ hidx]
        congr 1
        omega
      · intro a b hab
        exact Option.noConfusion hab
      · intro _
        exact ⟨rfl, rfl, rfl⟩
      · intro _ a b hab
        exact Option.noConfusion hab
      · intro _
        exact ⟨rfl, rfl, rfl⟩
      · intro h
        exact Bool.noConfusion h
      · intro hl hover hwsL
        exfalso
        have hpl : 0 < m.p_len := by omega
        have := bufValid_offset_lt inv.hlen inv.hsz inv.hbuf (i := m.p_len - 1) (by omega)
        omega
      · intro a b hab
        exact Option.noConfusion hab
    · obtain ⟨fpos⟩ := fd
      have hfp : fpos = m.p_fd_offset := inv.hfd
      subst hfp
      unfold hs_map_ptr at heq
      rw [if_neg h0, if_neg h1] at heq
      dsimp only at heq
      generalize hg1 : windowStart offset = ws at heq hwsle hw2 ⊢
      generalize hg2 : (windowSizeI offset len).toNat = wsize at heq hw1 hw2
      have hplen := inv.hlen
      have hpsize := inv.hsz
      have hp1len : (if m.p_size < wsize then m.p ++ List.replicate (wsize - m.p_size) 0
          else m.p).length = (if m.p_size < wsize then wsize else m.p_size) := by
        split_ifs with hsp
        · simp only [List.length_append, List.length_replicate, hplen]
          omega
        · exact hplen
      have hp1get : ∀ i, i < m.p.length →
          (if m.p_size < wsize then m.p ++ List.replicate (wsize - m.p_size) 0
           else m.p)[i]? = m.p[i]? := by
        intro i hi
        split_ifs
        · exact List.getElem?_append_left hi
        · rfl
      have hpsz : m.p_size ≤ (if m.p_size < wsize then wsize else m.p_size) ∧
          wsize ≤ (if m.p_size < wsize then wsize else m.p_size) := by
        split_ifs <;> omega
      by_cases hov : m.p_offset ≤ ws ∧ ws < m.p_offset + m.p_len ∧
          m.p_offset + m.p_len ≤ ws + wsize
      · rw [if_pos hov] at heq
        obtain ⟨hov1, hov2, hov3⟩ := hov
        dsimp only at heq
        have hro2 : m.p_offset + m.p_len - ws < wsize := by
          by_contra hc
          apply h1
          refine ⟨by omega, ?_⟩
          have h5 : ws + wsize ≤ m.p_offset + m.p_len := by omega
          have h6 : ((ws : Int) + (wsize : Int)) ≤ (m.p_offset : Int) + (m.p_len : Int) := by
            exact_mod_cast Nat.cast_le.mpr h5
          omega
        have hrs : ¬ ((wsize : Int) - ((m.p_offset + m.p_len - ws : Nat) : Int) ≤ 0) := by
          omega
        rw [if_neg hrs] at heq
        rw [seek_pos, seek_val] at heq
        have hrsz : ((wsize : Int) - ((m.p_offset + m.p_len - ws : Nat) : Int)).toNat
            = wsize - (m.p_offset + m.p_len - ws) := by omega
        rw [hrsz] at heq
        rw [fillLoop_nil_total, fillLoop_nil_eof _ _ _ (by omega), fillLoop_nil_err,
          ite_lt_min] at heq
        have hplpos : 0 < m.p_len := by omega
        have hrdL : m.p_offset + m.p_len ≤ content.length := by
          have := bufValid_offset_lt hplen hpsize inv.hbuf (i := m.p_len - 1) (by omega)
          omega
        have hp2len : (((if m.p_size < wsize then m.p ++ List.replicate (wsize - m.p_size) 0
            else m.p).drop (m.p_len - (m.p_offset + m.p_len - ws))).take
              (m.p_offset + m.p_len - ws) ++
            (if m.p_size < wsize then m.p ++ List.replicate (wsize - m.p_size) 0
             else m.p).drop (m.p_offset + m.p_len - ws)).length =
            (if m.p_size < wsize then wsize else m.p_size) := by
          simp only [List.length_append, List.length_take, List.length_drop, hp1len]
          omega
        have hp2get : ∀ i, i < m.p_offset + m.p_len - ws →
            (((if m.p_size < wsize then m.p ++ List.replicate (wsize - m.p_size) 0
              else m.p).drop (m.p_len - (m.p_offset + m.p_len - ws))).take
                (m.p_offset + m.p_len - ws) ++
              (if m.p_size < wsize then m.p ++ List.replicate (wsize - m.p_size) 0
               else m.p).drop (m.p_offset + m.p_len - ws))[i]? = content[ws + i]? := by
          intro i hi
          have hl1 : i < (((if m.p_size < wsize then m.p ++
              List.replicate (wsize - m.p_size) 0 else m.p).drop
                (m.p_len - (m.p_offset + m.p_len - ws))).take
                  (m.p_offset + m.p_len - ws)).length := by
            simp only [List.length_take, List.length_drop, hp1len]
            omega
          rw [List.getElem?_append_left hl1, List.getElem?_take_of_lt hi, List.getElem?_drop,
            hp1get _ (by omega), inv.hbuf _ (by omega)]
          congr 1
          omega
        cases heq
        exact hs_slow_assemble content m ⟨m.p_fd_offset⟩ offset len ws wsize
          (m.p_offset + m.p_len - ws) (if m.p_size < wsize then wsize else m.p_size)
          (m.p_offset + m.p_len) _ _ h0 h1 hwsle hw2 hro2 (by omega) hp2len hpsz.2 hp2get
          (by rw [decide_eq_true_eq]) (fun _ => by omega) (Or.inl hrdL) rfl rfl rfl
      · rw [if_neg hov] at heq
        dsimp only at heq
        have hMM : MAX_MAP_SIZE = 262144 := rfl
        have hrs : ¬ ((wsize : Int) - ((0 : Nat) : Int) ≤ 0) := by
          push_cast
          omega
        rw [if_neg hrs] at heq
        rw [seek_pos, seek_val] at heq
        have hrsz : ((wsize : Int) - ((0 : Nat) : Int)).toNat = wsize - 0 := by omega
        rw [hrsz] at heq
        rw [fillLoop_nil_total, fillLoop_nil_eof _ _ _ (by omega), fillLoop_nil_err,
          ite_lt_min] at heq
        have hfwd : m.p_offset ≤ ws → m.p_offset + m.p_len ≤ ws := by
          intro hpo
          by_contra hc
          apply h1
          have h3 : ¬ (m.p_offset + m.p_len ≤ ws + wsize) := by
            intro h4
            exact hov ⟨hpo, by omega, h4⟩
          refine ⟨by omega, ?_⟩
          have h5 : ws + wsize < m.p_offset + m.p_len := by omega
          have h6 : ((ws : Int) + (wsize : Int)) < (m.p_offset : Int) + (m.p_len : Int) := by
            exact_mod_cast Nat.cast_lt.mpr h5
          omega
        cases heq
        exact hs_slow_assemble content m ⟨m.p_fd_offset⟩ offset len ws wsize
          0 (if m.p_size < wsize then wsize else m.p_size) ws _ _ h0 h1 hwsle hw2
          (by omega) (by omega) hp1len hpsz.2
          (fun i hi => absurd hi (Nat.not_lt_zero i))
          (by rw [decide_eq_true_eq]) hfwd (Or.inr rfl) rfl rfl rfl

/-! ## Map pointer claim theorems -/

theorem mapInv_init (content : List Nat) : MapInv content initMap initFd :=
  ⟨rfl, Nat.le_refl 0, fun i hi => absurd hi (Nat.not_lt_zero i), rfl, rfl⟩

theorem runAcquires_correct (content : List Nat) (reqs : List (Nat × Int)) :
    ∀ (m : HsMap) (fd : FdState), MapInv content m fd →
      ∀ x ∈ (runAcquires content reqs m fd).2.2, ∀ v, x.2.view = some v →
        v.take x.2.len.toNat = (content.drop x.1.1).take x.2.len.toNat := by
  induction reqs with
  | nil =>
    intro m fd hinv x hx
    simp [runAcquires] at hx
  | cons r rest ih =>
    obtain ⟨off, l⟩ := r
    intro m fd hinv x hx
    have hstep := hs_map_ptr_spec content m fd off l
      (hs_map_ptr content [] m fd off l).1
      (hs_map_ptr content [] m fd off l).2.1
      (hs_map_ptr content [] m fd off l).2.2 hinv rfl
    simp only [runAcquires] at hx
    rcases List.mem_cons.mp hx with hx1 | hx2
    · subst hx1
      intro v hv
      exact hstep.2.1 v hv
    · exact ih _ _ hstep.1 x hx2

/-- Claim C1: for every forward-only sequence of acquire calls over a known
byte source, every non-NULL return yields a view whose first actual_length
bytes equal the slice of the true source content starting at the requested
offset. -/
theorem acquire_view_matches_source (content : List Nat) (reqs : List (Nat × Int))
    (hfwd : ForwardOnly reqs) :
    ∀ x ∈ (runAcquires content reqs initMap initFd).2.2, ∀ v, x.2.view = some v →
      v.take x.2.len.toNat = (content.drop x.1.1).take x.2.len.toNat :=
  runAcquires_correct content reqs initMap initFd (mapInv_init content)

/-- Witness for C1 at a concrete source and a concrete forward-only call
sequence. -/
theorem acquire_view_matches_source_witness :
    ForwardOnly [((0 : Nat), (3 : Int)), ((2 : Nat), (4 : Int))] ∧
    (∀ x ∈ (runAcquires [5, 6, 7, 8, 9, 10] [((0 : Nat), (3 : Int)), ((2 : Nat), (4 : Int))]
        initMap initFd).2.2, ∀ v, x.2.view = some v →
      v.take x.2.len.toNat =
        (([5, 6, 7, 8, 9, 10] : List Nat).drop x.1.1).take x.2.len.toNat) :=
  ⟨by decide, acquire_view_matches_source [5, 6, 7, 8, 9, 10] _ (by decide)⟩

theorem forwardOnly_pairwise : ∀ reqs, ForwardOnly reqs →
    reqs.Pairwise (fun a b => a.1 ≤ b.1) := by
  intro reqs
  induction reqs with
  | nil =>
    intro _
    exact List.Pairwise.nil
  | cons a rest ih =>
    intro h
    cases rest with
    | nil => exact List.pairwise_singleton _ _
    | cons b rest2 =>
      have h1 : a.1 ≤ b.1 := h.1
      have h2 := ih h.2
      refine List.Pairwise.cons ?_ h2
      intro y hy
      rcases List.mem_cons.mp hy with rfl | hy2
      · exact h1
      · have := (List.pairwise_cons.mp h2).1 y hy2
        omega

theorem readChain_le : ∀ (content : List Nat) (c : Nat) (l : List (Nat × Nat)),
    ReadChain content c l → ∀ y ∈ l, c ≤ y.1 := by
  intro content c l
  induction l generalizing c with
  | nil =>
    intro _ y hy
    exact absurd hy (List.not_mem_nil y)
  | cons hd tl ih =>
    obtain ⟨a, b⟩ := hd
    intro h y hy
    rcases List.mem_cons.mp hy with rfl | hy2
    · exact h.1
    · have h1 := h.1
      have := ih _ h.2 y hy2
      omega

theorem readChain_pairwise (content : List Nat) :
    ∀ (l : List (Nat × Nat)) (c : Nat), ReadChain content c l →
      l.Pairwise (fun x y => min (x.1 + x.2) content.length ≤ y.1) := by
  intro l
  induction l with
  | nil =>
    intro c _
    exact List.Pairwise.nil
  | cons hd tl ih =>
    obtain ⟨a, b⟩ := hd
    intro c h
    refine List.Pairwise.cons ?_ (ih _ h.2)
    intro y hy
    have := readChain_le content _ tl h.2 y hy
    dsimp only
    omega

theorem runAcquires_readChain (content : List Nat) :
    ∀ (reqs : List (Nat × Int)) (m : HsMap) (fd : FdState), MapInv content m fd →
      reqs.Pairwise (fun a b => a.1 ≤ b.1) →
      (∀ r ∈ reqs, m.p_offset ≤ windowStart r.1) →
      ReadChain content m.p_fd_offset
        ((runAcquires content reqs m fd).2.2.filterMap (fun x => x.2.readReq)) := by
  intro reqs
  induction reqs with
  | nil =>
    intro m fd hinv _ _
    simp only [runAcquires, List.filterMap_nil]
    exact trivial
  | cons r rest ih =>
    obtain ⟨off, l⟩ := r
    intro m fd hinv hsort hws
    obtain ⟨hhd, htl⟩ := List.pairwise_cons.mp hsort
    have hstep := hs_map_ptr_spec content m fd off l
      (hs_map_ptr content [] m fd off l).1
      (hs_map_ptr content [] m fd off l).2.1
      (hs_map_ptr content [] m fd off l).2.2 hinv rfl
    simp only [runAcquires, List.filterMap_cons]
    rcases hrr : (hs_map_ptr content [] m fd off l).2.2.readReq with _ | ⟨a, b⟩
    · simp only [hrr]
      have hm := (hstep.2.2.2.1 hrr).2.1
      have hcur2 : (hs_map_ptr content [] m fd off l).1.p_fd_offset = m.p_fd_offset := by
        rw [hm]
      rw [← hcur2]
      apply ih _ _ hstep.1 htl
      intro r2 hr2
      have hoff2 : (hs_map_ptr content [] m fd off l).1.p_offset = m.p_offset := by
        rw [hm]
      rw [hoff2]
      exact hws r2 (List.mem_cons_of_mem _ hr2)
    · simp only [hrr]
      have hwshead := hws (off, l) (List.mem_cons_self _ _)
      constructor
      · have hF := hstep.2.2.2.2.1 hwshead a b hrr
        have hcur := hinv.hcur
        omega
      · have hK2 := hstep.2.2.2.2.2.2.2.2.2.2 a b hrr
        rw [← hK2]
        apply ih _ _ hstep.1 htl
        intro r2 hr2
        rcases hstep.2.2.2.2.2.2.2.2.2.1 with hG | hG
        · rw [hG]
          exact hws r2 (List.mem_cons_of_mem _ hr2)
        · rw [hG]
          exact windowStart_mono (hhd r2 hr2)

/-- Claim C7: under the forward-only contract the source is never re-read:
the read requests of a run form a cursor-ordered chain starting at 0, and
hence pairwise, the part of an earlier request that can deliver source
bytes ends at or before any later request starts — every byte of the
source is requested from the descriptor at most once. -/
theorem source_read_at_most_once (content : List Nat) (reqs : List (Nat × Int))
    (hfwd : ForwardOnly reqs) :
    ReadChain content 0
      ((runAcquires content reqs initMap initFd).2.2.filterMap (fun x => x.2.readReq)) ∧
    ((runAcquires content reqs initMap initFd).2.2.filterMap
        (fun x => x.2.readReq)).Pairwise
      (fun x y => min (x.1 + x.2) content.length ≤ y.1) := by
  have h := runAcquires_readChain content reqs initMap initFd (mapInv_init content)
    (forwardOnly_pairwise reqs hfwd) (fun r hr => Nat.zero_le _)
  exact ⟨h, readChain_pairwise content _ _ h⟩

/-- Witness for C7 at a concrete source and call sequence that issues two
read phases. -/
theorem source_read_at_most_once_witness :
    ForwardOnly [((0 : Nat), (4 : Int)), ((5 : Nat), (300000 : Int))] ∧
    (ReadChain [7, 7, 7, 7, 7, 7, 7, 7] 0
      ((runAcquires [7, 7, 7, 7, 7, 7, 7, 7] [((0 : Nat), (4 : Int)), ((5 : Nat), (300000 : Int))]
          initMap initFd).2.2.filterMap (fun x => x.2.readReq)) ∧
     ((runAcquires [7, 7, 7, 7, 7, 7, 7, 7] [((0 : Nat), (4 : Int)), ((5 : Nat), (300000 : Int))]
          initMap initFd).2.2.filterMap (fun x => x.2.readReq)).Pairwise
        (fun x y => min (x.1 + x.2) ([7, 7, 7, 7, 7, 7, 7, 7] : List Nat).length ≤ y.1)) :=
  ⟨by decide, source_read_at_most_once [7, 7, 7, 7, 7, 7, 7, 7] _ (by decide)⟩

/-- Claim C9: after any acquire call under the map invariant, the stored
descriptor cursor p_fd_offset equals the descriptor's true read position;
a seek is issued during the call exactly when the stored cursor differs
from the computed read start; in particular a call whose read starts at the
stored cursor performs no seek, and a call with no read phase performs no
seek. -/
theorem cursor_and_seek (content : List Nat) (m : HsMap) (fd : FdState)
    (offset : Nat) (len : Int) (inv : MapInv content m fd) :
    (hs_map_ptr content [] m fd offset len).2.1.pos =
      (hs_map_ptr content [] m fd offset len).1.p_fd_offset ∧
    (∀ a b, (hs_map_ptr content [] m fd offset len).2.2.readReq = some (a, b) →
      ((hs_map_ptr content [] m fd offset len).2.2.didSeek = true ↔
        ¬ m.p_fd_offset = a)) ∧
    (∀ b, (hs_map_ptr content [] m fd offset len).2.2.readReq = some (m.p_fd_offset, b) →
      (hs_map_ptr content [] m fd offset len).2.2.didSeek = false) ∧
    ((hs_map_ptr content [] m fd offset len).2.2.readReq = none →
      (hs_map_ptr content [] m fd offset len).2.2.didSeek = false) := by
  have h := hs_map_ptr_spec content m fd offset len
    (hs_map_ptr content [] m fd offset len).1
    (hs_map_ptr content [] m fd offset len).2.1
    (hs_map_ptr content [] m fd offset len).2.2 inv rfl
  refine ⟨h.1.hfd, h.2.2.1, ?_, fun hn => (h.2.2.2.1 hn).1⟩
  intro b hb
  have h2 := h.2.2.1 _ _ hb
  cases hds : (hs_map_ptr content [] m fd offset len).2.2.didSeek with
  | false => rfl
  | true => exact absurd rfl (h2.mp hds)

/-- Witness for C9 at a fresh map over a concrete source. -/
theorem cursor_and_seek_witness :
    (hs_map_ptr [3, 1, 4, 1, 5] [] initMap initFd 0 4).2.1.pos =
      (hs_map_ptr [3, 1, 4, 1, 5] [] initMap initFd 0 4).1.p_fd_offset ∧
    (∀ a b, (hs_map_ptr [3, 1, 4, 1, 5] [] initMap initFd 0 4).2.2.readReq = some (a, b) →
      ((hs_map_ptr [3, 1, 4, 1, 5] [] initMap initFd 0 4).2.2.didSeek = true ↔
        ¬ initMap.p_fd_offset = a)) ∧
    (∀ b, (hs_map_ptr [3, 1, 4, 1, 5] [] initMap initFd 0 4).2.2.readReq =
        some (initMap.p_fd_offset, b) →
      (hs_map_ptr [3, 1, 4, 1, 5] [] initMap initFd 0 4).2.2.didSeek = false) ∧
    ((hs_map_ptr [3, 1, 4, 1, 5] [] initMap initFd 0 4).2.2.readReq = none →
      (hs_map_ptr [3, 1, 4, 1, 5] [] initMap initFd 0 4).2.2.didSeek = false) :=
  cursor_and_seek [3, 1, 4, 1, 5] initMap initFd 0 4 (mapInv_init _)

/-- Claim C10: the end-of-input flag reflects only the current call: a call
served entirely from the resident window (fast path) reports
reached_eof = false and changes no state at all, regardless of what any
earlier call observed; and the flag is true only when this call's read
request ran past the end of the source. -/
theorem eof_flag_current_call_only (content : List Nat) (m : HsMap) (fd : FdState)
    (offset : Nat) (len : Int) (inv : MapInv content m fd) :
    ((¬ len = 0 ∧ m.p_offset ≤ offset ∧
        (offset : Int) + len ≤ (m.p_offset : Int) + (m.p_len : Int)) →
      (hs_map_ptr content [] m fd offset len).2.2.reached_eof = false ∧
      (hs_map_ptr content [] m fd offset len).1 = m ∧
      (hs_map_ptr content [] m fd offset len).2.1 = fd) ∧
    ((hs_map_ptr content [] m fd offset len).2.2.reached_eof = true →
      ∃ a b, (hs_map_ptr content [] m fd offset len).2.2.readReq = some (a, b) ∧
        content.length < a + b) := by
  have h := hs_map_ptr_spec content m fd offset len
    (hs_map_ptr content [] m fd offset len).1
    (hs_map_ptr content [] m fd offset len).2.1
    (hs_map_ptr content [] m fd offset len).2.2 inv rfl
  exact ⟨h.2.2.2.2.2.1, h.2.2.2.2.2.2.1⟩

/-- Witness for C10 on the map state left by a first call that already
observed end of input: the second call is served from the resident window. -/
theorem eof_flag_current_call_only_witness :
    ((¬ (3 : Int) = 0 ∧ (hs_map_ptr [9, 8, 7, 6, 5, 4] [] initMap initFd 0 4).1.p_offset ≤ 1 ∧
        ((1 : Nat) : Int) + 3 ≤
          ((hs_map_ptr [9, 8, 7, 6, 5, 4] [] initMap initFd 0 4).1.p_offset : Int) +
          ((hs_map_ptr [9, 8, 7, 6, 5, 4] [] initMap initFd 0 4).1.p_len : Int)) →
      (hs_map_ptr [9, 8, 7, 6, 5, 4] []
        (hs_map_ptr [9, 8, 7, 6, 5, 4] [] initMap initFd 0 4).1
        (hs_map_ptr [9, 8, 7, 6, 5, 4] [] initMap initFd 0 4).2.1 1 3).2.2.reached_eof = false ∧
      (hs_map_ptr [9, 8, 7, 6, 5, 4] []
        (hs_map_ptr [9, 8, 7, 6, 5, 4] [] initMap initFd 0 4).1
        (hs_map_ptr [9, 8, 7, 6, 5, 4] [] initMap initFd 0 4).2.1 1 3).1 =
        (hs_map_ptr [9, 8, 7, 6, 5, 4] [] initMap initFd 0 4).1 ∧
      (hs_map_ptr [9, 8, 7, 6, 5, 4] []
        (hs_map_ptr [9, 8, 7, 6, 5, 4] [] initMap initFd 0 4).1
        (hs_map_ptr [9, 8, 7, 6, 5, 4] [] initMap initFd 0 4).2.1 1 3).2.1 =
        (hs_map_ptr [9, 8, 7, 6, 5, 4] [] initMap initFd 0 4).2.1) ∧
    ((hs_map_ptr [9, 8, 7, 6, 5, 4] []
        (hs_map_ptr [9, 8, 7, 6, 5, 4] [] initMap initFd 0 4).1
        (hs_map_ptr [9, 8, 7, 6, 5, 4] [] initMap initFd 0 4).2.1 1 3).2.2.reached_eof = true →
      ∃ a b, (hs_map_ptr [9, 8, 7, 6, 5, 4] []
          (hs_map_ptr [9, 8, 7, 6, 5, 4] [] initMap initFd 0 4).1
          (hs_map_ptr [9, 8, 7, 6, 5, 4] [] initMap initFd 0 4).2.1 1 3).2.2.readReq =
            some (a, b) ∧
        ([9, 8, 7, 6, 5, 4] : List Nat).length < a + b) :=
  eof_flag_current_call_only [9, 8, 7, 6, 5, 4]
    (hs_map_ptr [9, 8, 7, 6, 5, 4] [] initMap initFd 0 4).1
    (hs_map_ptr [9, 8, 7, 6, 5, 4] [] initMap initFd 0 4).2.1 1 3
    (hs_map_ptr_spec [9, 8, 7, 6, 5, 4] initMap initFd 0 4
      (hs_map_ptr [9, 8, 7, 6, 5, 4] [] initMap initFd 0 4).1
      (hs_map_ptr [9, 8, 7, 6, 5, 4] [] initMap initFd 0 4).2.1
      (hs_map_ptr [9, 8, 7, 6, 5, 4] [] initMap initFd 0 4).2.2
      (mapInv_init _) rfl).1

/-- Claim C4 counterexample: on a 10-byte source, an acquire at offset 8
for 4 bytes returns actual_length = 2 with the end-of-input flag set, but
the subsequent acquire at offset 12 (beyond the end) returns
actual_length = -2, not 0 as the claim states (the code caps *len to
p_len - (offset - p_offset), which is negative past the end). -/
theorem eof_capping_counterexample :
    ((runAcquires (List.replicate 10 0) [((8 : Nat), (4 : Int)), ((12 : Nat), (4 : Int))]
        initMap initFd).2.2.map (fun x => (x.2.len, x.2.reached_eof))) =
      [(2, true), (-2, true)] ∧ ¬ ((-2 : Int) = 0) := by
  constructor
  · decide
  · decide

/-- Claim C4 (amended): when the computed window start is still within a
source of length L, an acquire whose requested range extends past the end
returns actual_length = L - offset with reached_eof set; for offset ≤ L
this is the claimed capped length L - offset ≥ 0, but for offset > L the
call returns the negative value L - offset rather than 0. -/
theorem eof_capping (content : List Nat) (m : HsMap) (fd : FdState)
    (offset : Nat) (len : Int) (inv : MapInv content m fd)
    (hl : 0 < len) (hover : (content.length : Int) < (offset : Int) + len)
    (hws : windowStart offset ≤ content.length) :
    (hs_map_ptr content [] m fd offset len).2.2.len =
      (content.length : Int) - (offset : Int) ∧
    (hs_map_ptr content [] m fd offset len).2.2.reached_eof = true := by
  have h := hs_map_ptr_spec content m fd offset len
    (hs_map_ptr content [] m fd offset len).1
    (hs_map_ptr content [] m fd offset len).2.1
    (hs_map_ptr content [] m fd offset len).2.2 inv rfl
  exact h.2.2.2.2.2.2.2.1 hl hover hws

/-- Witness for the amended C4, both at an offset inside the source and,
via the map state the first call leaves, at an offset beyond it. -/
theorem eof_capping_witness :
    ((0 : Int) < 4 ∧ ((List.replicate 10 0 : List Nat).length : Int) < ((8 : Nat) : Int) + 4 ∧
      windowStart 8 ≤ (List.replicate 10 0 : List Nat).length) ∧
    ((hs_map_ptr (List.replicate 10 0) [] initMap initFd 8 4).2.2.len =
        ((List.replicate 10 0 : List Nat).length : Int) - ((8 : Nat) : Int) ∧
      (hs_map_ptr (List.replicate 10 0) [] initMap initFd 8 4).2.2.reached_eof = true) :=
  ⟨⟨by decide, by decide, by decide⟩,
    eof_capping (List.replicate 10 0) initMap initFd 8 4 (mapInv_init _)
      (by decide) (by decide) (by decide)⟩

theorem fillLoop_err_head (content : List Nat) (startPos readSize : Nat)
    (rest : List (Option Nat)) (total : Nat) :
    fillLoop content startPos readSize (none :: rest) total = ⟨total, false, true⟩ := rfl

/-- Claim C5 (amended): when the first read of the fill loop reports an
error, the loop aborts immediately — no bytes are consumed, the descriptor
stays at the read start — but the call does NOT surface a failure to the
caller: it returns a non-NULL mapping (with the length capped to what was
resident before the error) and leaves reached_eof false; only the error log
records the event. -/
theorem read_error_returns_mapping (content : List Nat) (rest : List (Option Nat))
    (m : HsMap) (fd : FdState) (offset : Nat) (len : Int)
    (hl : ¬ len = 0)
    (hslow : ¬ (m.p_offset ≤ offset ∧
      (offset : Int) + len ≤ (m.p_offset : Int) + (m.p_len : Int)))
    (hfd : fd.pos = m.p_fd_offset) :
    (hs_map_ptr content (none :: rest) m fd offset len).2.2.view.isSome = true ∧
    (hs_map_ptr content (none :: rest) m fd offset len).2.2.ioError = true ∧
    (hs_map_ptr content (none :: rest) m fd offset len).2.2.reached_eof = false ∧
    (∀ a b, (hs_map_ptr content (none :: rest) m fd offset len).2.2.readReq = some (a, b) →
      (hs_map_ptr content (none :: rest) m fd offset len).2.1.pos = a) := by
  obtain ⟨fpos⟩ := fd
  have hfp : fpos = m.p_fd_offset := hfd
  subst hfp
  have hwsle := windowStart_le offset
  obtain ⟨hw1, hw2⟩ := windowSize_ge offset len
  unfold hs_map_ptr
  rw [if_neg hl, if_neg hslow]
  dsimp only
  generalize hg1 : windowStart offset = ws at hwsle hw2 ⊢
  generalize hg2 : (windowSizeI offset len).toNat = wsize at hw1 hw2 ⊢
  by_cases hov : m.p_offset ≤ ws ∧ ws < m.p_offset + m.p_len ∧
      m.p_offset + m.p_len ≤ ws + wsize
  · rw [if_pos hov]
    obtain ⟨hov1, hov2, hov3⟩ := hov
    dsimp only
    have hro2 : m.p_offset + m.p_len - ws < wsize := by
      by_contra hc
      apply hslow
      refine ⟨by omega, ?_⟩
      have h5 : ws + wsize ≤ m.p_offset + m.p_len := by omega
      have h6 : ((ws : Int) + (wsize : Int)) ≤ (m.p_offset : Int) + (m.p_len : Int) := by
        exact_mod_cast Nat.cast_le.mpr h5
      omega
    have hrs : ¬ ((wsize : Int) - ((m.p_offset + m.p_len - ws : Nat) : Int) ≤ 0) := by
      omega
    rw [if_neg hrs]
    rw [seek_pos, seek_val, fillLoop_err_head]
    refine ⟨rfl, rfl, rfl, ?_⟩
    intro a b hab
    dsimp only at hab ⊢
    have hin := Option.some.injEq _ _ ▸ hab
    have ha : a = m.p_offset + m.p_len := (congrArg Prod.fst hin).symm
    subst ha
    omega
  · rw [if_neg hov]
    dsimp only
    have hMM : MAX_MAP_SIZE = 262144 := rfl
    have hrs : ¬ ((wsize : Int) - ((0 : Nat) : Int) ≤ 0) := by
      push_cast
      omega
    rw [if_neg hrs]
    rw [seek_pos, seek_val, fillLoop_err_head]
    refine ⟨rfl, rfl, rfl, ?_⟩
    intro a b hab
    dsimp only at hab ⊢
    have hin := Option.some.injEq _ _ ▸ hab
    have ha : a = ws := (congrArg Prod.fst hin).symm
    subst ha
    omega

/-- Claim C5 counterexample: with a read error injected on the first read,
the acquire at offset 0 for 4 bytes over a 6-byte source does not fail: it
returns a non-NULL view of length 0 with reached_eof = false, while the
error is only recorded internally — contradicting the claim that a read
error surfaces a failure to the caller. -/
theorem read_error_counterexample :
    (hs_map_ptr [1, 2, 3, 4, 5, 6] [none] initMap initFd 0 4).2.2.ioError = true ∧
    (hs_map_ptr [1, 2, 3, 4, 5, 6] [none] initMap initFd 0 4).2.2.view.isSome = true ∧
    (hs_map_ptr [1, 2, 3, 4, 5, 6] [none] initMap initFd 0 4).2.2.reached_eof = false ∧
    (hs_map_ptr [1, 2, 3, 4, 5, 6] [none] initMap initFd 0 4).2.2.len = 0 := by
  refine ⟨?_, ?_, ?_, ?_⟩ <;> decide

/-- Witness for the amended C5 at a concrete slow-path call. -/
theorem read_error_returns_mapping_witness :
    (¬ (4 : Int) = 0 ∧
      ¬ (initMap.p_offset ≤ 0 ∧
        ((0 : Nat) : Int) + 4 ≤ (initMap.p_offset : Int) + (initMap.p_len : Int)) ∧
      initFd.pos = initMap.p_fd_offset) ∧
    ((hs_map_ptr [1, 2, 3, 4, 5, 6] [none] initMap initFd 0 4).2.2.view.isSome = true ∧
      (hs_map_ptr [1, 2, 3, 4, 5, 6] [none] initMap initFd 0 4).2.2.ioError = true ∧
      (hs_map_ptr [1, 2, 3, 4, 5, 6] [none] initMap initFd 0 4).2.2.reached_eof = false ∧
      (∀ a b, (hs_map_ptr [1, 2, 3, 4, 5, 6] [none] initMap initFd 0 4).2.2.readReq =
          some (a, b) →
        (hs_map_ptr [1, 2, 3, 4, 5, 6] [none] initMap initFd 0 4).2.1.pos = a)) :=
  ⟨⟨by decide, by decide, rfl⟩,
    read_error_returns_mapping [1, 2, 3, 4, 5, 6] [] initMap initFd 0 4
      (by decide) (by decide) rfl⟩

/-- Claim C8 (amended): a zero-length request fails with EINVAL, performs
no read and changes nothing; but a negative-length request is NOT rejected:
the source checks *len == 0 only, so requested_length > 0 is not in fact
required for a non-NULL return. -/
theorem zero_len_einval (content : List Nat) (sched : List (Option Nat))
    (m : HsMap) (fd : FdState) (offset : Nat) :
    hs_map_ptr content sched m fd offset 0 =
      (m, fd, ⟨none, 0, false, false, true, false, none⟩) := by
  unfold hs_map_ptr
  rw [if_pos rfl]

/-- Claim C8 counterexample: after one successful acquire over a 6-byte
source, an acquire with requested length -1 is served by the fast path:
no EINVAL, a non-NULL view, and no read — contradicting the claim that
zero or negative lengths fail with EINVAL. -/
theorem negative_len_not_rejected :
    (hs_map_ptr [1, 2, 3, 4, 5, 6] []
        (hs_map_ptr [1, 2, 3, 4, 5, 6] [] initMap initFd 0 4).1
        (hs_map_ptr [1, 2, 3, 4, 5, 6] [] initMap initFd 0 4).2.1 0 (-1)).2.2.einval =
      false ∧
    (hs_map_ptr [1, 2, 3, 4, 5, 6] []
        (hs_map_ptr [1, 2, 3, 4, 5, 6] [] initMap initFd 0 4).1
        (hs_map_ptr [1, 2, 3, 4, 5, 6] [] initMap initFd 0 4).2.1 0 (-1)).2.2.view.isSome =
      true ∧
    (hs_map_ptr [1, 2, 3, 4, 5, 6] []
        (hs_map_ptr [1, 2, 3, 4, 5, 6] [] initMap initFd 0 4).1
        (hs_map_ptr [1, 2, 3, 4, 5, 6] [] initMap initFd 0 4).2.1 0 (-1)).2.2.readReq =
      none := by
  refine ⟨?_, ?_, ?_⟩ <;> decide

/-! ## Signature loader lemmas -/

theorem scoop_done (job : Job) (n : Nat) (h : n ≤ job.input.length) :
    rs_scoop_read job n =
      (RS_DONE, job.input.take n, { job with input := job.input.drop n }) := by
  unfold rs_scoop_read
  rw [if_pos h]

theorem scoop_blocked (job : Job) (n : Nat) (h : job.input.length < n)
    (h2 : job.input.length ≠ 0 ∨ job.eofIn = false) :
    rs_scoop_read job n = (RS_BLOCKED, [], job) := by
  unfold rs_scoop_read
  rw [if_neg (by omega), if_neg]
  rintro ⟨ha, hb⟩
  rcases h2 with h2 | h2
  · exact h2 ha
  · rw [h2] at hb
    exact Bool.noConfusion hb

theorem scoop_ended (job : Job) (n : Nat) (h : job.input.length = 0)
    (he : job.eofIn = true) (hn : 0 < n) :
    rs_scoop_read job n = (RS_INPUT_ENDED, [], job) := by
  unfold rs_scoop_read
  rw [if_neg (by omega), if_pos ⟨h, he⟩]

theorem suck_done (job : Job) (h : 4 ≤ job.input.length) :
    rs_suck_n4 job = (RS_DONE, toInt32 (beDecode (job.input.take 4)),
      { job with input := job.input.drop 4 }) := by
  unfold rs_suck_n4
  rw [scoop_done job 4 h]

theorem suck_blocked (job : Job) (h : job.input.length < 4)
    (h2 : job.input.length ≠ 0 ∨ job.eofIn = false) :
    rs_suck_n4 job = (RS_BLOCKED, toInt32 (beDecode []), job) := by
  unfold rs_suck_n4
  rw [scoop_blocked job 4 h h2]

theorem suck_ended (job : Job) (h : job.input.length = 0) (he : job.eofIn = true) :
    rs_suck_n4 job = (RS_INPUT_ENDED, toInt32 (beDecode []), job) := by
  unfold rs_suck_n4
  rw [scoop_ended job 4 h he (by omega)]

theorem magic_eq (j : Job) (h : 4 ≤ j.input.length) :
    rs_loadsig_s_magic j = (RS_RUNNING,
      { j with
        input := j.input.drop 4,
        magic := toInt32 (beDecode (j.input.take 4)),
        statefn := SigState.s_blocklen }) := by
  unfold rs_loadsig_s_magic
  rw [suck_done j h]
  simp

theorem blocklen_eq_corrupt (j : Job) (h : 4 ≤ j.input.length)
    (hv : toInt32 (beDecode (j.input.take 4)) < 1) :
    rs_loadsig_s_blocklen j = (RS_CORRUPT, { j with input := j.input.drop 4 }) := by
  unfold rs_loadsig_s_blocklen
  rw [suck_done j h]
  simp [hv]

theorem blocklen_eq_run (j : Job) (h : 4 ≤ j.input.length)
    (hv : ¬ toInt32 (beDecode (j.input.take 4)) < 1) :
    rs_loadsig_s_blocklen j = (RS_RUNNING,
      { j with
        input := j.input.drop 4,
        block_len := toInt32 (beDecode (j.input.take 4)),
        statefn := SigState.s_stronglen }) := by
  unfold rs_loadsig_s_blocklen
  rw [suck_done j h]
  simp [hv]

theorem stronglen_eq_corrupt (j : Job) (h : 4 ≤ j.input.length)
    (hv : toInt32 (beDecode (j.input.take 4)) < 0 ∨
      RS_MAX_STRONG_SUM_LENGTH < toInt32 (beDecode (j.input.take 4))) :
    rs_loadsig_s_stronglen j = (RS_CORRUPT, { j with input := j.input.drop 4 }) := by
  unfold rs_loadsig_s_stronglen
  rw [suck_done j h]
  simp [hv]

theorem stronglen_eq_run (j : Job) (h : 4 ≤ j.input.length)
    (hv : ¬ (toInt32 (beDecode (j.input.take 4)) < 0 ∨
      RS_MAX_STRONG_SUM_LENGTH < toInt32 (beDecode (j.input.take 4)))) :
    rs_loadsig_s_stronglen j = (RS_RUNNING,
      { j with
        input := j.input.drop 4,
        strong_sum_len := toInt32 (beDecode (j.input.take 4)),
        signature := {
          magic := j.magic,
          block_len := j.block_len,
          strong_sum_len := toInt32 (beDecode (j.input.take 4)),
          blocks := [] },
        statefn := SigState.s_weak }) := by
  unfold rs_loadsig_s_stronglen
  rw [suck_done j h]
  simp [hv, rs_signature_init]

theorem weak_eq_run (j : Job) (h : 4 ≤ j.input.length) :
    rs_loadsig_s_weak j = (RS_RUNNING,
      { j with
        input := j.input.drop 4,
        weak_sig := toInt32 (beDecode (j.input.take 4)),
        statefn := SigState.s_strong }) := by
  unfold rs_loadsig_s_weak
  rw [suck_done j h]
  simp

theorem weak_eq_done (j : Job) (h0 : j.input = []) (he : j.eofIn = true) :
    rs_loadsig_s_weak j = (RS_DONE, j) := by
  unfold rs_loadsig_s_weak
  rw [suck_ended j (by rw [h0]; rfl) he]
  simp

theorem strong_eq_run (j : Job)
    (h : j.signature.strong_sum_len.toNat ≤ j.input.length) :
    rs_loadsig_s_strong j = (RS_RUNNING,
      { j with
        input := j.input.drop j.signature.strong_sum_len.toNat,
        signature := { j.signature with blocks := j.signature.blocks ++
          [(j.weak_sig, j.input.take j.signature.strong_sum_len.toNat)] },
        sig_blocks := j.sig_blocks + 1,
        statefn := SigState.s_weak }) := by
  unfold rs_loadsig_s_strong
  rw [scoop_done j _ h]
  simp [rs_signature_add_block]

theorem magic_blocked (j : Job) (h : j.input.length < 4)
    (h2 : j.input.length ≠ 0 ∨ j.eofIn = false) :
    rs_loadsig_s_magic j = (RS_BLOCKED, j) := by
  unfold rs_loadsig_s_magic
  rw [suck_blocked j h h2]
  simp

theorem blocklen_blocked (j : Job) (h : j.input.length < 4)
    (h2 : j.input.length ≠ 0 ∨ j.eofIn = false) :
    rs_loadsig_s_blocklen j = (RS_BLOCKED, j) := by
  unfold rs_loadsig_s_blocklen
  rw [suck_blocked j h h2]
  simp

theorem stronglen_blocked (j : Job) (h : j.input.length < 4)
    (h2 : j.input.length ≠ 0 ∨ j.eofIn = false) :
    rs_loadsig_s_stronglen j = (RS_BLOCKED, j) := by
  unfold rs_loadsig_s_stronglen
  rw [suck_blocked j h h2]
  simp

theorem weak_blocked (j : Job) (h : j.input.length < 4)
    (h2 : j.input.length ≠ 0 ∨ j.eofIn = false) :
    rs_loadsig_s_weak j = (RS_BLOCKED, j) := by
  unfold rs_loadsig_s_weak
  rw [suck_blocked j h h2]
  simp

theorem strong_blocked (j : Job) (h : j.input.length < j.signature.strong_sum_len.toNat)
    (h2 : j.input.length ≠ 0 ∨ j.eofIn = false) :
    rs_loadsig_s_strong j = (RS_BLOCKED, j) := by
  unfold rs_loadsig_s_strong
  rw [scoop_blocked j _ h h2]
  simp

theorem magic_ended (j : Job) (h : j.input = []) (he : j.eofIn = true) :
    rs_loadsig_s_magic j = (RS_INPUT_ENDED, j) := by
  unfold rs_loadsig_s_magic
  rw [suck_ended j (by rw [h]; rfl) he]
  simp

theorem blocklen_ended (j : Job) (h : j.input = []) (he : j.eofIn = true) :
    rs_loadsig_s_blocklen j = (RS_INPUT_ENDED, j) := by
  unfold rs_loadsig_s_blocklen
  rw [suck_ended j (by rw [h]; rfl) he]
  simp

theorem stronglen_ended (j : Job) (h : j.input = []) (he : j.eofIn = true) :
    rs_loadsig_s_stronglen j = (RS_INPUT_ENDED, j) := by
  unfold rs_loadsig_s_stronglen
  rw [suck_ended j (by rw [h]; rfl) he]
  simp

theorem strong_ended (j : Job) (h : j.input = []) (he : j.eofIn = true)
    (hn : 0 < j.signature.strong_sum_len.toNat) :
    rs_loadsig_s_strong j = (RS_INPUT_ENDED, j) := by
  unfold rs_loadsig_s_strong
  rw [scoop_ended j _ (by rw [h]; rfl) he hn]
  simp

theorem eof_or (j : Job) (hc : ¬ (j.input.length = 0 ∧ j.eofIn = true)) :
    j.input.length ≠ 0 ∨ j.eofIn = false := by
  rcases Bool.eq_false_or_eq_true j.eofIn with hb | hb
  · exact Or.inl (fun hz => hc ⟨hz, hb⟩)
  · exact Or.inr hb

theorem step_phi (j j' : Job) (h : rs_job_step j = (RS_RUNNING, j')) :
    jobPhi j' < jobPhi j := by
  unfold rs_job_step at h
  cases hst : j.statefn <;> rw [hst] at h
  case s_magic =>
    rcases Nat.lt_or_ge j.input.length 4 with hl | hl
    · by_cases hc : j.input.length = 0 ∧ j.eofIn = true
      · rw [magic_ended j (List.length_eq_zero.mp hc.1) hc.2] at h
        simp at h
      · rw [magic_blocked j hl (eof_or j hc)] at h
        simp at h
    · rw [magic_eq j hl] at h
      have h2 : _ = j' := congrArg Prod.snd h
      subst h2
      simp [jobPhi, sigRank, hst, List.length_drop]
      omega
  case s_blocklen =>
    rcases Nat.lt_or_ge j.input.length 4 with hl | hl
    · by_cases hc : j.input.length = 0 ∧ j.eofIn = true
      · rw [blocklen_ended j (List.length_eq_zero.mp hc.1) hc.2] at h
        simp at h
      · rw [blocklen_blocked j hl (eof_or j hc)] at h
        simp at h
    · by_cases hv : toInt32 (beDecode (j.input.take 4)) < 1
      · rw [blocklen_eq_corrupt j hl hv] at h
        simp at h
      · rw [blocklen_eq_run j hl hv] at h
        have h2 : _ = j' := congrArg Prod.snd h
        subst h2
        simp [jobPhi, sigRank, hst, List.length_drop]
        omega
  case s_stronglen =>
    rcases Nat.lt_or_ge j.input.length 4 with hl | hl
    · by_cases hc : j.input.length = 0 ∧ j.eofIn = true
      · rw [stronglen_ended j (List.length_eq_zero.mp hc.1) hc.2] at h
        simp at h
      · rw [stronglen_blocked j hl (eof_or j hc)] at h
        simp at h
    · by_cases hv : toInt32 (beDecode (j.input.take 4)) < 0 ∨
        RS_MAX_STRONG_SUM_LENGTH < toInt32 (beDecode (j.input.take 4))
      · rw [stronglen_eq_corrupt j hl hv] at h
        simp at h
      · rw [stronglen_eq_run j hl hv] at h
        have h2 : _ = j' := congrArg Prod.snd h
        subst h2
        simp [jobPhi, sigRank, hst, List.length_drop]
        omega
  case s_weak =>
    rcases Nat.lt_or_ge j.input.length 4 with hl | hl
    · by_cases hc : j.input.length = 0 ∧ j.eofIn = true
      · rw [weak_eq_done j (List.length_eq_zero.mp hc.1) hc.2] at h
        simp at h
      · rw [weak_blocked j hl (eof_or j hc)] at h
        simp at h
    · rw [weak_eq_run j hl] at h
      have h2 : _ = j' := congrArg Prod.snd h
      subst h2
      simp [jobPhi, sigRank, hst, List.length_drop]
      omega
  case s_strong =>
    rcases Nat.lt_or_ge j.input.length j.signature.strong_sum_len.toNat with hl | hl
    · by_cases hc : j.input.length = 0 ∧ j.eofIn = true
      · rw [strong_ended j (List.length_eq_zero.mp hc.1) hc.2 (by omega)] at h
        simp at h
      · rw [strong_blocked j hl (eof_or j hc)] at h
        simp at h
    · rw [strong_eq_run j hl] at h
      have h2 : _ = j' := congrArg Prod.snd h
      subst h2
      simp [jobPhi, sigRank, hst, List.length_drop]
      omega

theorem driveFuel_mono : ∀ (fuel fuel' : Nat) (j : Job), jobPhi j < fuel →
    jobPhi j < fuel' → driveFuel fuel j = driveFuel fuel' j := by
  intro fuel
  induction fuel with
  | zero =>
    intro fuel' j h
    omega
  | succ f ih =>
    intro fuel' j h h'
    cases fuel' with
    | zero => omega
    | succ f' =>
      simp only [driveFuel]
      cases hs : rs_job_step j with
      | mk r j2 =>
        cases r with
        | RS_RUNNING =>
          have hphi := step_phi j j2 hs
          exact ih f' j2 (by omega) (by omega)
        | RS_DONE => rfl
        | RS_BLOCKED => rfl
        | RS_INPUT_ENDED => rfl
        | RS_CORRUPT => rfl

theorem drive_step (j j2 : Job) (h : rs_job_step j = (RS_RUNNING, j2)) :
    rs_job_drive j = rs_job_drive j2 := by
  unfold rs_job_drive
  have hphi := step_phi j j2 h
  calc driveFuel (jobPhi j + 1) j = driveFuel (jobPhi j) j2 := by
        simp only [driveFuel]
        rw [h]
    _ = driveFuel (jobPhi j2 + 1) j2 := driveFuel_mono _ _ _ (by omega) (by omega)

theorem drive_stop (j : Job) (r : RsResult) (j2 : Job) (h : rs_job_step j = (r, j2))
    (hr : r ≠ RS_RUNNING) : rs_job_drive j = (r, j2) := by
  unfold rs_job_drive
  simp only [driveFuel]
  rw [h]
  cases r with
  | RS_RUNNING => exact absurd rfl hr
  | RS_DONE => rfl
  | RS_BLOCKED => rfl
  | RS_INPUT_ENDED => rfl
  | RS_CORRUPT => rfl

theorem step_blocked (j j2 : Job) (he : j.eofIn = false)
    (h : rs_job_step j = (RS_BLOCKED, j2)) : j2 = j := by
  unfold rs_job_step at h
  cases hst : j.statefn <;> rw [hst] at h
  case s_magic =>
    rcases Nat.lt_or_ge j.input.length 4 with hl | hl
    · rw [magic_blocked j hl (Or.inr he)] at h
      exact (congrArg Prod.snd h).symm
    · rw [magic_eq j hl] at h
      simp at h
  case s_blocklen =>
    rcases Nat.lt_or_ge j.input.length 4 with hl | hl
    · rw [blocklen_blocked j hl (Or.inr he)] at h
      exact (congrArg Prod.snd h).symm
    · by_cases hv : toInt32 (beDecode (j.input.take 4)) < 1
      · rw [blocklen_eq_corrupt j hl hv] at h
        simp at h
      · rw [blocklen_eq_run j hl hv] at h
        simp at h
  case s_stronglen =>
    rcases Nat.lt_or_ge j.input.length 4 with hl | hl
    · rw [stronglen_blocked j hl (Or.inr he)] at h
      exact (congrArg Prod.snd h).symm
    · by_cases hv : toInt32 (beDecode (j.input.take 4)) < 0 ∨
        RS_MAX_STRONG_SUM_LENGTH < toInt32 (beDecode (j.input.take 4))
      · rw [stronglen_eq_corrupt j hl hv] at h
        simp at h
      · rw [stronglen_eq_run j hl hv] at h
        simp at h
  case s_weak =>
    rcases Nat.lt_or_ge j.input.length 4 with hl | hl
    · rw [weak_blocked j hl (Or.inr he)] at h
      exact (congrArg Prod.snd h).symm
    · rw [weak_eq_run j hl] at h
      simp at h
  case s_strong =>
    rcases Nat.lt_or_ge j.input.length j.signature.strong_sum_len.toNat with hl | hl
    · rw [strong_blocked j hl (Or.inr he)] at h
      exact (congrArg Prod.snd h).symm
    · rw [strong_eq_run j hl] at h
      simp at h

theorem step_mono (j j2 : Job) (r : RsResult) (he : j.eofIn = false)
    (ext : List Nat) (e : Bool)
    (h : rs_job_step j = (r, j2)) (hr : ¬ r = RS_BLOCKED) :
    rs_job_step { j with input := j.input ++ ext, eofIn := e } =
      (r, { j2 with input := j2.input ++ ext, eofIn := e }) := by
  unfold rs_job_step at h ⊢
  cases hst : j.statefn <;> rw [hst] at h <;> dsimp only
  case s_magic =>
    rcases Nat.lt_or_ge j.input.length 4 with hl | hl
    · rw [magic_blocked j hl (Or.inr he)] at h
      exact absurd (congrArg Prod.fst h).symm hr
    · rw [magic_eq j hl] at h
      have h2 : _ = j2 := congrArg Prod.snd h
      have h1 : _ = r := congrArg Prod.fst h
      subst h2
      subst h1
      rw [magic_eq _ (by simp only [List.length_append]; omega)]
      simp only [List.take_append_of_le_length hl, List.drop_append_of_le_length hl]
  case s_blocklen =>
    rcases Nat.lt_or_ge j.input.length 4 with hl | hl
    · rw [blocklen_blocked j hl (Or.inr he)] at h
      exact absurd (congrArg Prod.fst h).symm hr
    · by_cases hv : toInt32 (beDecode (j.input.take 4)) < 1
      · rw [blocklen_eq_corrupt j hl hv] at h
        have h2 : _ = j2 := congrArg Prod.snd h
        have h1 : _ = r := congrArg Prod.fst h
        subst h2
        subst h1
        rw [blocklen_eq_corrupt _ (by simp only [List.length_append]; omega)
          (by simpa [List.take_append_of_le_length hl] using hv)]
        simp only [List.take_append_of_le_length hl, List.drop_append_of_le_length hl]
        rw [hst]
      · rw [blocklen_eq_run j hl hv] at h
        have h2 : _ = j2 := congrArg Prod.snd h
        have h1 : _ = r := congrArg Prod.fst h
        subst h2
        subst h1
        rw [blocklen_eq_run _ (by simp only [List.length_append]; omega)
          (by simpa [List.take_append_of_le_length hl] using hv)]
        simp only [List.take_append_of_le_length hl, List.drop_append_of_le_length hl]
  case s_stronglen =>
    rcases Nat.lt_or_ge j.input.length 4 with hl | hl
    · rw [stronglen_blocked j hl (Or.inr he)] at h
      exact absurd (congrArg Prod.fst h).symm hr
    · by_cases hv : toInt32 (beDecode (j.input.take 4)) < 0 ∨
        RS_MAX_STRONG_SUM_LENGTH < toInt32 (beDecode (j.input.take 4))
      · rw [stronglen_eq_corrupt j hl hv] at h
        have h2 : _ = j2 := congrArg Prod.snd h
        have h1 : _ = r := congrArg Prod.fst h
        subst h2
        subst h1
        rw [stronglen_eq_corrupt _ (by simp only [List.length_append]; omega)
          (by simpa [List.take_append_of_le_length hl] using hv)]
        simp only [List.take_append_of_le_length hl, List.drop_append_of_le_length hl]
        rw [hst]
      · rw [stronglen_eq_run j hl hv] at h
        have h2 : _ = j2 := congrArg Prod.snd h
        have h1 : _ = r := congrArg Prod.fst h
        subst h2
        subst h1
        rw [stronglen_eq_run _ (by simp only [List.length_append]; omega)
          (by simpa [List.take_append_of_le_length hl] using hv)]
        simp only [List.take_append_of_le_length hl, List.drop_append_of_le_length hl]
  case s_weak =>
    rcases Nat.lt_or_ge j.input.length 4 with hl | hl
    · rw [weak_blocked j hl (Or.inr he)] at h
      exact absurd (congrArg Prod.fst h).symm hr
    · rw [weak_eq_run j hl] at h
      have h2 : _ = j2 := congrArg Prod.snd h
      have h1 : _ = r := congrArg Prod.fst h
      subst h2
      subst h1
      rw [weak_eq_run _ (by simp only [List.length_append]; omega)]
      simp only [List.take_append_of_le_length hl, List.drop_append_of_le_length hl]
  case s_strong =>
    rcases Nat.lt_or_ge j.input.length j.signature.strong_sum_len.toNat with hl | hl
    · rw [strong_blocked j hl (Or.inr he)] at h
      exact absurd (congrArg Prod.fst h).symm hr
    · rw [strong_eq_run j hl] at h
      have h2 : _ = j2 := congrArg Prod.snd h
      have h1 : _ = r := congrArg Prod.fst h
      subst h2
      subst h1
      rw [strong_eq_run _ (by simp only [List.length_append]; omega)]
      simp only [List.take_append_of_le_length hl, List.drop_append_of_le_length hl]

theorem step_eof_preserved (j j2 : Job) (r : RsResult) (he : j.eofIn = false)
    (h : rs_job_step j = (r, j2)) : j2.eofIn = false := by
  unfold rs_job_step at h
  cases hst : j.statefn <;> rw [hst] at h
  case s_magic =>
    rcases Nat.lt_or_ge j.input.length 4 with hl | hl
    · rw [magic_blocked j hl (Or.inr he)] at h
      have h2 : _ = j2 := congrArg Prod.snd h
      rw [← h2]
      exact he
    · rw [magic_eq j hl] at h
      have h2 : _ = j2 := congrArg Prod.snd h
      rw [← h2]
      exact he
  case s_blocklen =>
    rcases Nat.lt_or_ge j.input.length 4 with hl | hl
    · rw [blocklen_blocked j hl (Or.inr he)] at h
      have h2 : _ = j2 := congrArg Prod.snd h
      rw [← h2]
      exact he
    · by_cases hv : toInt32 (beDecode (j.input.take 4)) < 1
      · rw [blocklen_eq_corrupt j hl hv] at h
        have h2 : _ = j2 := congrArg Prod.snd h
        rw [← h2]
        exact he
      · rw [blocklen_eq_run j hl hv] at h
        have h2 : _ = j2 := congrArg Prod.snd h
        rw [← h2]
        exact he
  case s_stronglen =>
    rcases Nat.lt_or_ge j.input.length 4 with hl | hl
    · rw [stronglen_blocked j hl (Or.inr he)] at h
      have h2 : _ = j2 := congrArg Prod.snd h
      rw [← h2]
      exact he
    · by_cases hv : toInt32 (beDecode (j.input.take 4)) < 0 ∨
        RS_MAX_STRONG_SUM_LENGTH < toInt32 (beDecode (j.input.take 4))
      · rw [stronglen_eq_corrupt j hl hv] at h
        have h2 : _ = j2 := congrArg Prod.snd h
        rw [← h2]
        exact he
      · rw [stronglen_eq_run j hl hv] at h
        have h2 : _ = j2 := congrArg Prod.snd h
        rw [← h2]
        exact he
  case s_weak =>
    rcases Nat.lt_or_ge j.input.length 4 with hl | hl
    · rw [weak_blocked j hl (Or.inr he)] at h
      have h2 : _ = j2 := congrArg Prod.snd h
      rw [← h2]
      exact he
    · rw [weak_eq_run j hl] at h
      have h2 : _ = j2 := congrArg Prod.snd h
      rw [← h2]
      exact he
  case s_strong =>
    rcases Nat.lt_or_ge j.input.length j.signature.strong_sum_len.toNat with hl | hl
    · rw [strong_blocked j hl (Or.inr he)] at h
      have h2 : _ = j2 := congrArg Prod.snd h
      rw [← h2]
      exact he
    · rw [strong_eq_run j hl] at h
      have h2 : _ = j2 := congrArg Prod.snd h
      rw [← h2]
      exact he

theorem drive_props : ∀ (n : Nat) (j : Job), jobPhi j ≤ n → j.eofIn = false →
    ∀ (r : RsResult) (j1 : Job), rs_job_drive j = (r, j1) →
      j1.eofIn = false ∧ (r = RS_BLOCKED → rs_job_step j1 = (RS_BLOCKED, j1)) := by
  intro n
  induction n with
  | zero =>
    intro j hphi he r j1 hd
    cases hs : rs_job_step j with
    | mk r0 j2 =>
      by_cases hr0 : r0 = RS_RUNNING
      · subst hr0
        have hphi2 := step_phi j j2 hs
        omega
      · have hd2 : (r0, j2) = (r, j1) := by
          rw [← drive_stop j r0 j2 hs hr0]
          exact hd
        have h1 : r = r0 := (congrArg Prod.fst hd2).symm
        have h2 : j1 = j2 := (congrArg Prod.snd hd2).symm
        subst h1
        subst h2
        refine ⟨step_eof_preserved j j1 r he hs, ?_⟩
        intro hb
        subst hb
        have hjj := step_blocked j j1 he hs
        rw [hjj] at hs ⊢
        exact hs
  | succ n ih =>
    intro j hphi he r j1 hd
    cases hs : rs_job_step j with
    | mk r0 j2 =>
      by_cases hr0 : r0 = RS_RUNNING
      · subst hr0
        have hphi2 := step_phi j j2 hs
        have hd2 : rs_job_drive j2 = (r, j1) := by
          rw [← drive_step j j2 hs]
          exact hd
        exact ih j2 (by omega) (step_eof_preserved j j2 RS_RUNNING he hs) r j1 hd2
      · have hd2 : (r0, j2) = (r, j1) := by
          rw [← drive_stop j r0 j2 hs hr0]
          exact hd
        have h1 : r = r0 := (congrArg Prod.fst hd2).symm
        have h2 : j1 = j2 := (congrArg Prod.snd hd2).symm
        subst h1
        subst h2
        refine ⟨step_eof_preserved j j1 r he hs, ?_⟩
        intro hb
        subst hb
        have hjj := step_blocked j j1 he hs
        rw [hjj] at hs ⊢
        exact hs

theorem drive_ext : ∀ (n : Nat) (j : Job), jobPhi j ≤ n → j.eofIn = false →
    ∀ (r : RsResult) (j1 : Job), rs_job_drive j = (r, j1) →
      ∀ (ext : List Nat) (e : Bool),
        (r = RS_BLOCKED →
          rs_job_drive { j1 with input := j1.input ++ ext, eofIn := e } =
            rs_job_drive { j with input := j.input ++ ext, eofIn := e }) ∧
        (¬ r = RS_BLOCKED →
          rs_job_drive { j with input := j.input ++ ext, eofIn := e } =
            (r, { j1 with input := j1.input ++ ext, eofIn := e })) := by
  intro n
  induction n with
  | zero =>
    intro j hphi he r j1 hd ext e
    cases hs : rs_job_step j with
    | mk r0 j2 =>
      by_cases hr0 : r0 = RS_RUNNING
      · subst hr0
        have hphi2 := step_phi j j2 hs
        omega
      · have hd2 : (r0, j2) = (r, j1) := by
          rw [← drive_stop j r0 j2 hs hr0]
          exact hd
        have h1 : r = r0 := (congrArg Prod.fst hd2).symm
        have h2 : j1 = j2 := (congrArg Prod.snd hd2).symm
        subst h1
        subst h2
        by_cases hb : r = RS_BLOCKED
        · subst hb
          have hjj := step_blocked j j1 he hs
          subst hjj
          exact ⟨fun _ => rfl, fun hnb => absurd rfl hnb⟩
        · refine ⟨fun hbb => absurd hbb hb, fun _ => ?_⟩
          have hext := step_mono j j1 r he ext e hs hb
          exact drive_stop _ r _ hext hr0
  | succ n ih =>
    intro j hphi he r j1 hd ext e
    cases hs : rs_job_step j with
    | mk r0 j2 =>
      by_cases hr0 : r0 = RS_RUNNING
      · subst hr0
        have hphi2 := step_phi j j2 hs
        have hd2 : rs_job_drive j2 = (r, j1) := by
          rw [← drive_step j j2 hs]
          exact hd
        have he2 := step_eof_preserved j j2 RS_RUNNING he hs
        have hext := step_mono j j2 RS_RUNNING he ext e hs (by simp)
        have hstep2 := drive_step _ _ hext
        obtain ⟨ih1, ih2⟩ := ih j2 (by omega) he2 r j1 hd2 ext e
        refine ⟨?_, ?_⟩
        · intro hb
          rw [hstep2]
          exact ih1 hb
        · intro hnb
          rw [hstep2]
          exact ih2 hnb
      · have hd2 : (r0, j2) = (r, j1) := by
          rw [← drive_stop j r0 j2 hs hr0]
          exact hd
        have h1 : r = r0 := (congrArg Prod.fst hd2).symm
        have h2 : j1 = j2 := (congrArg Prod.snd hd2).symm
        subst h1
        subst h2
        by_cases hb : r = RS_BLOCKED
        · subst hb
          have hjj := step_blocked j j1 he hs
          subst hjj
          exact ⟨fun _ => rfl, fun hnb => absurd rfl hnb⟩
        · refine ⟨fun hbb => absurd hbb hb, fun _ => ?_⟩
          have hext := step_mono j j1 r he ext e hs hb
          exact drive_stop _ r _ hext hr0

theorem feed1_keep (st : RsResult × Job) (b : Nat) (h : ¬ st.1 = RS_BLOCKED) :
    feed1 st b = st := by
  unfold feed1
  rw [if_neg h]

theorem foldl_keep : ∀ (l : List Nat) (st : RsResult × Job), ¬ st.1 = RS_BLOCKED →
    l.foldl feed1 st = st := by
  intro l
  induction l with
  | nil =>
    intro st h
    rfl
  | cons b rest ih =>
    intro st h
    rw [List.foldl_cons, feed1_keep st b h]
    exact ih st h

theorem feed_equiv : ∀ (bytes : List Nat) (j : Job), j.eofIn = false →
    (finishJob (bytes.foldl feed1 (RS_BLOCKED, j))).1 =
      (rs_job_drive { j with input := j.input ++ bytes, eofIn := true }).1 ∧
    (finishJob (bytes.foldl feed1 (RS_BLOCKED, j))).2.core =
      (rs_job_drive { j with input := j.input ++ bytes, eofIn := true }).2.core := by
  intro bytes
  induction bytes with
  | nil =>
    intro j he
    rw [List.foldl_nil, List.append_nil]
    unfold finishJob
    rw [if_pos rfl]
    exact ⟨rfl, rfl⟩
  | cons b rest ih =>
    intro j he
    rw [List.foldl_cons]
    have hfeed : feed1 (RS_BLOCKED, j) b = rs_job_drive { j with input := j.input ++ [b] } := by
      unfold feed1
      rw [if_pos rfl]
    rw [hfeed]
    rcases hd : rs_job_drive { j with input := j.input ++ [b] } with ⟨r1, j1⟩
    have hej : ({ j with input := j.input ++ [b] } : Job).eofIn = false := he
    have hprops := drive_props (jobPhi { j with input := j.input ++ [b] }) _ le_rfl hej r1 j1 hd
    have hextm := drive_ext (jobPhi { j with input := j.input ++ [b] }) _ le_rfl hej r1 j1 hd
      rest true
    have harg : ({ ({ j with input := j.input ++ [b] } : Job) with
        input := ({ j with input := j.input ++ [b] } : Job).input ++ rest,
        eofIn := true } : Job) =
        { j with input := j.input ++ b :: rest, eofIn := true } := by
      simp
    by_cases hb : r1 = RS_BLOCKED
    · subst hb
      obtain ⟨he1, hq⟩ := hprops
      obtain ⟨iha, ihb⟩ := ih j1 he1
      have hx := hextm.1 rfl
      rw [harg] at hx
      rw [hx] at iha ihb
      exact ⟨iha, ihb⟩
    · have hkeep := foldl_keep rest (r1, j1) hb
      rw [hkeep]
      have hfin : finishJob (r1, j1) = (r1, j1) := by
        unfold finishJob
        rw [if_neg hb]
      rw [hfin]
      have hx := hextm.2 hb
      rw [harg] at hx
      rw [hx]
      exact ⟨rfl, rfl⟩

/-- Claim C3: for a well-formed signature wire stream, feeding the loader
one byte at a time (driving the job after each byte, with blocked returns
leaving the job completely unchanged) produces exactly the same final
result and the same final signature table, field for field and record for
record, as feeding all bytes at once. -/
theorem byte_at_a_time_equiv (mgc bl sl : Nat) (rs : List (Nat × List Nat))
    (hwf : WFSig mgc bl sl rs) :
    (runByByte (encodeSig mgc bl sl rs)).1 = (runAll (encodeSig mgc bl sl rs)).1 ∧
    (runByByte (encodeSig mgc bl sl rs)).2.signature =
      (runAll (encodeSig mgc bl sl rs)).2.signature ∧
    (∀ (j j2 : Job), j.eofIn = false → rs_job_step j = (RS_BLOCKED, j2) → j2 = j) := by
  have h := feed_equiv (encodeSig mgc bl sl rs) (initLoadsigJob [] false) rfl
  have harg : ({ initLoadsigJob [] false with
      input := (initLoadsigJob [] false).input ++ encodeSig mgc bl sl rs,
      eofIn := true } : Job) = initLoadsigJob (encodeSig mgc bl sl rs) true := by
    simp [initLoadsigJob]
  rw [harg] at h
  refine ⟨h.1, ?_, fun j j2 he hs => step_blocked j j2 he hs⟩
  have h2 := h.2
  unfold Job.core at h2
  exact congrArg (fun q => q.2.2.2.2.2.2) h2

/-- Witness for C3 at the spec's concrete two-record signature:
block length 700, strong-sum length 16, records (1, "0"*16), (2, "1"*16). -/
theorem byte_at_a_time_equiv_witness :
    WFSig 1920139830 700 16 [(1, List.replicate 16 48), (2, List.replicate 16 49)] ∧
    ((runByByte (encodeSig 1920139830 700 16
        [(1, List.replicate 16 48), (2, List.replicate 16 49)])).1 =
      (runAll (encodeSig 1920139830 700 16
        [(1, List.replicate 16 48), (2, List.replicate 16 49)])).1 ∧
    (runByByte (encodeSig 1920139830 700 16
        [(1, List.replicate 16 48), (2, List.replicate 16 49)])).2.signature =
      (runAll (encodeSig 1920139830 700 16
        [(1, List.replicate 16 48), (2, List.replicate 16 49)])).2.signature ∧
    (∀ (j j2 : Job), j.eofIn = false → rs_job_step j = (RS_BLOCKED, j2) → j2 = j)) :=
  ⟨by decide, byte_at_a_time_equiv 1920139830 700 16
    [(1, List.replicate 16 48), (2, List.replicate 16 49)] (by decide)⟩

theorem beDecode_be4 (n : Nat) (h : n < 2 ^ 32) : beDecode (be4 n) = n := by
  simp only [beDecode, be4, List.foldl_cons, List.foldl_nil]
  omega

theorem be4_take (n : Nat) (rest : List Nat) : (be4 n ++ rest).take 4 = be4 n := rfl

theorem be4_drop (n : Nat) (rest : List Nat) : (be4 n ++ rest).drop 4 = rest := rfl

theorem be4_len (n : Nat) (rest : List Nat) : 4 ≤ (be4 n ++ rest).length := by
  simp [be4]

theorem drive_records : ∀ (rs : List (Nat × List Nat)) (j : Job),
    j.statefn = SigState.s_weak → j.eofIn = true →
    j.input = encodeRecords rs →
    (∀ q ∈ rs, q.1 < 2 ^ 32 ∧ q.2.length = j.signature.strong_sum_len.toNat) →
    ∃ j1, rs_job_drive j = (RS_DONE, j1) ∧
      j1.signature.blocks = j.signature.blocks ++ rs.map (fun q => (toInt32 q.1, q.2)) ∧
      j1.signature.magic = j.signature.magic ∧
      j1.signature.block_len = j.signature.block_len ∧
      j1.signature.strong_sum_len = j.signature.strong_sum_len ∧
      j1.statefn = SigState.s_weak ∧ j1.input = [] := by
  intro rs
  induction rs with
  | nil =>
    intro j hst he hin _
    have hstep : rs_job_step j = (RS_DONE, j) := by
      unfold rs_job_step
      rw [hst]
      exact weak_eq_done j hin he
    refine ⟨j, drive_stop j RS_DONE j hstep (by simp), by simp, rfl, rfl, rfl, hst, hin⟩
  | cons q rs2 ih =>
    obtain ⟨w, s⟩ := q
    intro j hst he hin hlen
    have hs_len : s.length = j.signature.strong_sum_len.toNat :=
      (hlen (w, s) (List.mem_cons_self _ _)).2
    have hw32 : w < 2 ^ 32 := (hlen (w, s) (List.mem_cons_self _ _)).1
    have hin4 : 4 ≤ j.input.length := by
      rw [hin]
      exact be4_len w _
    have hstep1 : rs_job_step j = (RS_RUNNING,
        { j with
          input := j.input.drop 4,
          weak_sig := toInt32 (beDecode (j.input.take 4)),
          statefn := SigState.s_strong }) := by
      unfold rs_job_step
      rw [hst]
      exact weak_eq_run j hin4
    have htake : j.input.take 4 = be4 w := by
      rw [hin]
      exact be4_take w _
    have hdrop : j.input.drop 4 = s ++ encodeRecords rs2 := by
      rw [hin]
      exact be4_drop w _
    have hd1 := drive_step _ _ hstep1
    set j2 : Job := { j with
      input := j.input.drop 4,
      weak_sig := toInt32 (beDecode (j.input.take 4)),
      statefn := SigState.s_strong } with hj2
    have hn2 : j2.signature.strong_sum_len.toNat ≤ j2.input.length := by
      show j.signature.strong_sum_len.toNat ≤ (j.input.drop 4).length
      rw [hdrop]
      simp [List.length_append]
      omega
    have hstep2 : rs_job_step j2 = (RS_RUNNING,
        { j2 with
          input := j2.input.drop j2.signature.strong_sum_len.toNat,
          signature := { j2.signature with blocks := j2.signature.blocks ++
            [(j2.weak_sig, j2.input.take j2.signature.strong_sum_len.toNat)] },
          sig_blocks := j2.sig_blocks + 1,
          statefn := SigState.s_weak }) := by
      unfold rs_job_step
      show rs_loadsig_s_strong j2 = _
      exact strong_eq_run j2 hn2
    have hd2 := drive_step _ _ hstep2
    have htake2 : j2.input.take j2.signature.strong_sum_len.toNat = s := by
      show (j.input.drop 4).take j.signature.strong_sum_len.toNat = s
      rw [hdrop, ← hs_len, List.take_append_of_le_length (by omega), List.take_length]
    have hdrop2 : j2.input.drop j2.signature.strong_sum_len.toNat = encodeRecords rs2 := by
      show (j.input.drop 4).drop j.signature.strong_sum_len.toNat = encodeRecords rs2
      rw [hdrop, ← hs_len, List.drop_append_of_le_length (by omega), List.drop_length,
        List.nil_append]
    set j3 : Job := { j2 with
      input := j2.input.drop j2.signature.strong_sum_len.toNat,
      signature := { j2.signature with blocks := j2.signature.blocks ++
        [(j2.weak_sig, j2.input.take j2.signature.strong_sum_len.toNat)] },
      sig_blocks := j2.sig_blocks + 1,
      statefn := SigState.s_weak } with hj3
    obtain ⟨j1, hdr, hblocks, hmg, hbl, hsl, hstf, hinf⟩ := ih j3 rfl he hdrop2
      (by
        intro q hq
        have := hlen q (List.mem_cons_of_mem _ hq)
        exact this)
    refine ⟨j1, ?_, ?_, ?_, ?_, ?_, hstf, hinf⟩
    · rw [hd1, hd2]
      exact hdr
    · rw [hblocks]
      show (j.signature.blocks ++ [(j2.weak_sig, j2.input.take _)]) ++ _ = _
      rw [htake2]
      show (j.signature.blocks ++ [(toInt32 (beDecode (j.input.take 4)), s)]) ++ _ = _
      rw [htake, beDecode_be4 w hw32]
      simp [List.append_assoc]
    · exact hmg
    · exact hbl
    · exact hsl

theorem encodeSig_assoc (mgc bl sl : Nat) (rs : List (Nat × List Nat)) :
    encodeSig mgc bl sl rs = be4 mgc ++ (be4 bl ++ (be4 sl ++ encodeRecords rs)) := by
  simp [encodeSig, List.append_assoc]

theorem runAll_wf (mgc bl sl : Nat) (rs : List (Nat × List Nat))
    (hwf : WFSig mgc bl sl rs) :
    ∃ j1, runAll (encodeSig mgc bl sl rs) = (RS_DONE, j1) ∧
      j1.signature.magic = toInt32 mgc ∧
      j1.signature.block_len = toInt32 bl ∧
      j1.signature.strong_sum_len = toInt32 sl ∧
      j1.signature.blocks = rs.map (fun q => (toInt32 q.1, q.2)) ∧
      j1.statefn = SigState.s_weak ∧ j1.input = [] := by
  obtain ⟨hm32, hb32, hs32, hbl1, hsl0, hslM, hrec⟩ := hwf
  unfold runAll
  set j0 : Job := initLoadsigJob (encodeSig mgc bl sl rs) true with hj0
  have hin0 : j0.input = be4 mgc ++ (be4 bl ++ (be4 sl ++ encodeRecords rs)) :=
    encodeSig_assoc mgc bl sl rs
  have hstep1 : rs_job_step j0 = (RS_RUNNING,
      { j0 with
        input := j0.input.drop 4,
        magic := toInt32 (beDecode (j0.input.take 4)),
        statefn := SigState.s_blocklen }) := by
    unfold rs_job_step
    show rs_loadsig_s_magic j0 = _
    exact magic_eq j0 (by rw [hin0]; exact be4_len mgc _)
  have htake1 : j0.input.take 4 = be4 mgc := by
    rw [hin0]
    exact be4_take mgc _
  have hdrop1 : j0.input.drop 4 = be4 bl ++ (be4 sl ++ encodeRecords rs) := by
    rw [hin0]
    exact be4_drop mgc _
  set j1 : Job := { j0 with
    input := j0.input.drop 4,
    magic := toInt32 (beDecode (j0.input.take 4)),
    statefn := SigState.s_blocklen } with hj1
  have hval1 : toInt32 (beDecode (j1.input.take 4)) = toInt32 bl := by
    show toInt32 (beDecode ((j0.input.drop 4).take 4)) = toInt32 bl
    rw [hdrop1, be4_take, beDecode_be4 bl hb32]
  have hstep2 : rs_job_step j1 = (RS_RUNNING,
      { j1 with
        input := j1.input.drop 4,
        block_len := toInt32 (beDecode (j1.input.take 4)),
        statefn := SigState.s_stronglen }) := by
    unfold rs_job_step
    show rs_loadsig_s_blocklen j1 = _
    refine blocklen_eq_run j1 ?_ ?_
    · show 4 ≤ (j0.input.drop 4).length
      rw [hdrop1]
      exact be4_len bl _
    · rw [hval1]
      omega
  have hdrop2 : j1.input.drop 4 = be4 sl ++ encodeRecords rs := by
    show (j0.input.drop 4).drop 4 = _
    rw [hdrop1]
    exact be4_drop bl _
  set j2 : Job := { j1 with
    input := j1.input.drop 4,
    block_len := toInt32 (beDecode (j1.input.take 4)),
    statefn := SigState.s_stronglen } with hj2
  have hval2 : toInt32 (beDecode (j2.input.take 4)) = toInt32 sl := by
    show toInt32 (beDecode ((j1.input.drop 4).take 4)) = toInt32 sl
    rw [hdrop2, be4_take, beDecode_be4 sl hs32]
  have hstep3 : rs_job_step j2 = (RS_RUNNING,
      { j2 with
        input := j2.input.drop 4,
        strong_sum_len := toInt32 (beDecode (j2.input.take 4)),
        signature := {
          magic := j2.magic,
          block_len := j2.block_len,
          strong_sum_len := toInt32 (beDecode (j2.input.take 4)),
          blocks := [] },
        statefn := SigState.s_weak }) := by
    unfold rs_job_step
    show rs_loadsig_s_stronglen j2 = _
    refine stronglen_eq_run j2 ?_ ?_
    · show 4 ≤ (j1.input.drop 4).length
      rw [hdrop2]
      exact be4_len sl _
    · rw [hval2]
      omega
  have hdrop3 : j2.input.drop 4 = encodeRecords rs := by
    show (j1.input.drop 4).drop 4 = _
    rw [hdrop2]
    exact be4_drop sl _
  set j3 : Job := { j2 with
    input := j2.input.drop 4,
    strong_sum_len := toInt32 (beDecode (j2.input.take 4)),
    signature := {
      magic := j2.magic,
      block_len := j2.block_len,
      strong_sum_len := toInt32 (beDecode (j2.input.take 4)),
      blocks := [] },
    statefn := SigState.s_weak } with hj3
  have hs3 : j3.signature.strong_sum_len = toInt32 sl := hval2
  obtain ⟨jf, hdr, hblocks, hmg, hbl, hsl, hstf, hinf⟩ :=
    drive_records rs j3 rfl rfl hdrop3
      (by
        intro q hq
        refine ⟨(hrec q hq).1, ?_⟩
        rw [hs3]
        exact (hrec q hq).2)
  refine ⟨jf, ?_, ?_, ?_, ?_, ?_, hstf, hinf⟩
  · rw [drive_step _ _ hstep1, drive_step _ _ hstep2, drive_step _ _ hstep3]
    exact hdr
  · rw [hmg]
    show j2.magic = toInt32 mgc
    show toInt32 (beDecode (j0.input.take 4)) = toInt32 mgc
    rw [htake1, beDecode_be4 mgc hm32]
  · rw [hbl]
    show j2.block_len = toInt32 bl
    exact hval1
  · rw [hsl]
    exact hs3
  · rw [hblocks]
    show ([] : List (Int × List Nat)) ++ _ = _
    rw [List.nil_append]

theorem step_done (j j1 : Job) (h : rs_job_step j = (RS_DONE, j1)) :
    j1 = j ∧ j.statefn = SigState.s_weak ∧ j.input = [] := by
  unfold rs_job_step at h
  cases hst : j.statefn <;> rw [hst] at h
  case s_magic =>
    rcases Nat.lt_or_ge j.input.length 4 with hl | hl
    · by_cases hc : j.input.length = 0 ∧ j.eofIn = true
      · rw [magic_ended j (List.length_eq_zero.mp hc.1) hc.2] at h
        simp at h
      · rw [magic_blocked j hl (eof_or j hc)] at h
        simp at h
    · rw [magic_eq j hl] at h
      simp at h
  case s_blocklen =>
    rcases Nat.lt_or_ge j.input.length 4 with hl | hl
    · by_cases hc : j.input.length = 0 ∧ j.eofIn = true
      · rw [blocklen_ended j (List.length_eq_zero.mp hc.1) hc.2] at h
        simp at h
      · rw [blocklen_blocked j hl (eof_or j hc)] at h
        simp at h
    · by_cases hv : toInt32 (beDecode (j.input.take 4)) < 1
      · rw [blocklen_eq_corrupt j hl hv] at h
        simp at h
      · rw [blocklen_eq_run j hl hv] at h
        simp at h
  case s_stronglen =>
    rcases Nat.lt_or_ge j.input.length 4 with hl | hl
    · by_cases hc : j.input.length = 0 ∧ j.eofIn = true
      · rw [stronglen_ended j (List.length_eq_zero.mp hc.1) hc.2] at h
        simp at h
      · rw [stronglen_blocked j hl (eof_or j hc)] at h
        simp at h
    · by_cases hv : toInt32 (beDecode (j.input.take 4)) < 0 ∨
        RS_MAX_STRONG_SUM_LENGTH < toInt32 (beDecode (j.input.take 4))
      · rw [stronglen_eq_corrupt j hl hv] at h
        simp at h
      · rw [stronglen_eq_run j hl hv] at h
        simp at h
  case s_weak =>
    rcases Nat.lt_or_ge j.input.length 4 with hl | hl
    · by_cases hc : j.input.length = 0 ∧ j.eofIn = true
      · rw [weak_eq_done j (List.length_eq_zero.mp hc.1) hc.2] at h
        have h2 : _ = j1 := congrArg Prod.snd h
        exact ⟨h2.symm, rfl, List.length_eq_zero.mp hc.1⟩
      · rw [weak_blocked j hl (eof_or j hc)] at h
        simp at h
    · rw [weak_eq_run j hl] at h
      simp at h
  case s_strong =>
    rcases Nat.lt_or_ge j.input.length j.signature.strong_sum_len.toNat with hl | hl
    · by_cases hc : j.input.length = 0 ∧ j.eofIn = true
      · rw [strong_ended j (List.length_eq_zero.mp hc.1) hc.2 (by omega)] at h
        simp at h
      · rw [strong_blocked j hl (eof_or j hc)] at h
        simp at h
    · rw [strong_eq_run j hl] at h
      simp at h

theorem drive_done : ∀ (n : Nat) (j : Job), jobPhi j ≤ n →
    ∀ (j1 : Job), rs_job_drive j = (RS_DONE, j1) →
      j1.statefn = SigState.s_weak ∧ j1.input = [] := by
  intro n
  induction n with
  | zero =>
    intro j hphi j1 hd
    cases hs : rs_job_step j with
    | mk r0 j2 =>
      by_cases hr0 : r0 = RS_RUNNING
      · subst hr0
        have hphi2 := step_phi j j2 hs
        omega
      · have hd2 : (r0, j2) = (RS_DONE, j1) := by
          rw [← drive_stop j r0 j2 hs hr0]
          exact hd
        have h1 : r0 = RS_DONE := congrArg Prod.fst hd2
        have h2 : j1 = j2 := (congrArg Prod.snd hd2).symm
        subst h1
        subst h2
        obtain ⟨hj, hst, hin⟩ := step_done j j1 hs
        subst hj
        exact ⟨hst, hin⟩
  | succ n ih =>
    intro j hphi j1 hd
    cases hs : rs_job_step j with
    | mk r0 j2 =>
      by_cases hr0 : r0 = RS_RUNNING
      · subst hr0
        have hphi2 := step_phi j j2 hs
        have hd2 : rs_job_drive j2 = (RS_DONE, j1) := by
          rw [← drive_step j j2 hs]
          exact hd
        exact ih j2 (by omega) j1 hd2
      · have hd2 : (r0, j2) = (RS_DONE, j1) := by
          rw [← drive_stop j r0 j2 hs hr0]
          exact hd
        have h1 : r0 = RS_DONE := congrArg Prod.fst hd2
        have h2 : j1 = j2 := (congrArg Prod.snd hd2).symm
        subst h1
        subst h2
        obtain ⟨hj, hst, hin⟩ := step_done j j1 hs
        subst hj
        exact ⟨hst, hin⟩

/-- Claim C2: decoding a well-formed signature stream runs the fixed state
order magic, block-length, strong-sum-length, then alternating weak/strong,
appending one (weak, strong) record per pair in stream order into the
signature table, and terminates with RS_DONE exactly at the WEAK state on a
clean end of input; conversely any run of the loader that reports RS_DONE
ended at the WEAK state with its input fully consumed, so ending mid-record
is never reported as success. -/
theorem loader_decodes_and_done_only_at_weak :
    (∀ (mgc bl sl : Nat) (rs : List (Nat × List Nat)), WFSig mgc bl sl rs →
      ∃ j1, runAll (encodeSig mgc bl sl rs) = (RS_DONE, j1) ∧
        j1.signature.magic = toInt32 mgc ∧
        j1.signature.block_len = toInt32 bl ∧
        j1.signature.strong_sum_len = toInt32 sl ∧
        j1.signature.blocks = rs.map (fun q => (toInt32 q.1, q.2)) ∧
        j1.statefn = SigState.s_weak ∧ j1.input = []) ∧
    (∀ (bytes : List Nat) (j1 : Job), runAll bytes = (RS_DONE, j1) →
      j1.statefn = SigState.s_weak ∧ j1.input = []) :=
  ⟨fun mgc bl sl rs hwf => runAll_wf mgc bl sl rs hwf,
   fun bytes j1 hd => drive_done (jobPhi (initLoadsigJob bytes true))
     (initLoadsigJob bytes true) le_rfl j1 hd⟩

/-- Witness for C2 at the spec's concrete two-record signature. -/
theorem loader_decodes_witness :
    WFSig 1920139830 700 16 [(1, List.replicate 16 48), (2, List.replicate 16 49)] ∧
    (∃ j1, runAll (encodeSig 1920139830 700 16
        [(1, List.replicate 16 48), (2, List.replicate 16 49)]) = (RS_DONE, j1) ∧
      j1.signature.magic = toInt32 1920139830 ∧
      j1.signature.block_len = toInt32 700 ∧
      j1.signature.strong_sum_len = toInt32 16 ∧
      j1.signature.blocks = [(1, List.replicate 16 48), (2, List.replicate 16 49)].map
        (fun q => (toInt32 q.1, q.2)) ∧
      j1.statefn = SigState.s_weak ∧ j1.input = []) :=
  ⟨by decide, loader_decodes_and_done_only_at_weak.1 1920139830 700 16
    [(1, List.replicate 16 48), (2, List.replicate 16 49)] (by decide)⟩

/-- Claim C6: a stream whose block-length field decodes below 1 makes the
loader return RS_CORRUPT having consumed exactly the bytes up to and
including that field; a stream whose strong-sum-length field decodes to a
negative value or above the maximum likewise returns RS_CORRUPT having
consumed exactly the header; and a job that has reported a result other
than blocked (such as RS_CORRUPT) is permanently finished: further bytes
are ignored. -/
theorem corrupt_header_rejected :
    (∀ (mgc bl : Nat) (rest : List Nat), mgc < 2 ^ 32 → bl < 2 ^ 32 →
      toInt32 bl < 1 →
      ∃ j1, runAll (be4 mgc ++ be4 bl ++ rest) = (RS_CORRUPT, j1) ∧ j1.input = rest) ∧
    (∀ (mgc bl sl : Nat) (rest : List Nat), mgc < 2 ^ 32 → bl < 2 ^ 32 → sl < 2 ^ 32 →
      1 ≤ toInt32 bl → (toInt32 sl < 0 ∨ RS_MAX_STRONG_SUM_LENGTH < toInt32 sl) →
      ∃ j1, runAll (be4 mgc ++ be4 bl ++ be4 sl ++ rest) = (RS_CORRUPT, j1) ∧
        j1.input = rest) ∧
    (∀ (st : RsResult × Job) (b : Nat), st.1 = RS_CORRUPT → feed1 st b = st) := by
  refine ⟨?_, ?_, ?_⟩
  · intro mgc bl rest hm32 hb32 hbad
    unfold runAll
    set j0 : Job := initLoadsigJob (be4 mgc ++ be4 bl ++ rest) true with hj0
    have hin0 : j0.input = be4 mgc ++ (be4 bl ++ rest) := by
      show be4 mgc ++ be4 bl ++ rest = _
      rw [List.append_assoc]
    have hstep1 : rs_job_step j0 = (RS_RUNNING,
        { j0 with
          input := j0.input.drop 4,
          magic := toInt32 (beDecode (j0.input.take 4)),
          statefn := SigState.s_blocklen }) := by
      unfold rs_job_step
      show rs_loadsig_s_magic j0 = _
      exact magic_eq j0 (by rw [hin0]; exact be4_len mgc _)
    have hdrop1 : j0.input.drop 4 = be4 bl ++ rest := by
      rw [hin0]
      exact be4_drop mgc _
    set j1 : Job := { j0 with
      input := j0.input.drop 4,
      magic := toInt32 (beDecode (j0.input.take 4)),
      statefn := SigState.s_blocklen } with hj1
    have hval1 : toInt32 (beDecode (j1.input.take 4)) = toInt32 bl := by
      show toInt32 (beDecode ((j0.input.drop 4).take 4)) = toInt32 bl
      rw [hdrop1, be4_take, beDecode_be4 bl hb32]
    have hstep2 : rs_job_step j1 = (RS_CORRUPT, { j1 with input := j1.input.drop 4 }) := by
      unfold rs_job_step
      show rs_loadsig_s_blocklen j1 = _
      refine blocklen_eq_corrupt j1 ?_ ?_
      · show 4 ≤ (j0.input.drop 4).length
        rw [hdrop1]
        exact be4_len bl _
      · rw [hval1]
        exact hbad
    refine ⟨{ j1 with input := j1.input.drop 4 }, ?_, ?_⟩
    · rw [drive_step _ _ hstep1]
      exact drive_stop _ _ _ hstep2 (by simp)
    · show (j0.input.drop 4).drop 4 = rest
      rw [hdrop1]
      exact be4_drop bl _
  · intro mgc bl sl rest hm32 hb32 hs32 hgood hbad
    unfold runAll
    set j0 : Job := initLoadsigJob (be4 mgc ++ be4 bl ++ be4 sl ++ rest) true with hj0
    have hin0 : j0.input = be4 mgc ++ (be4 bl ++ (be4 sl ++ rest)) := by
      show be4 mgc ++ be4 bl ++ be4 sl ++ rest = _
      simp [List.append_assoc]
    have hstep1 : rs_job_step j0 = (RS_RUNNING,
        { j0 with
          input := j0.input.drop 4,
          magic := toInt32 (beDecode (j0.input.take 4)),
          statefn := SigState.s_blocklen }) := by
      unfold rs_job_step
      show rs_loadsig_s_magic j0 = _
      exact magic_eq j0 (by rw [hin0]; exact be4_len mgc _)
    have hdrop1 : j0.input.drop 4 = be4 bl ++ (be4 sl ++ rest) := by
      rw [hin0]
      exact be4_drop mgc _
    set j1 : Job := { j0 with
      input := j0.input.drop 4,
      magic := toInt32 (beDecode (j0.input.take 4)),
      statefn := SigState.s_blocklen } with hj1
    have hval1 : toInt32 (beDecode (j1.input.take 4)) = toInt32 bl := by
      show toInt32 (beDecode ((j0.input.drop 4).take 4)) = toInt32 bl
      rw [hdrop1, be4_take, beDecode_be4 bl hb32]
    have hstep2 : rs_job_step j1 = (RS_RUNNING,
        { j1 with
          input := j1.input.drop 4,
          block_len := toInt32 (beDecode (j1.input.take 4)),
          statefn := SigState.s_stronglen }) := by
      unfold rs_job_step
      show rs_loadsig_s_blocklen j1 = _
      refine blocklen_eq_run j1 ?_ ?_
      · show 4 ≤ (j0.input.drop 4).length
        rw [hdrop1]
        exact be4_len bl _
      · rw [hval1]
        omega
    have hdrop2 : j1.input.drop 4 = be4 sl ++ rest := by
      show (j0.input.drop 4).drop 4 = _
      rw [hdrop1]
      exact be4_drop bl _
    set j2 : Job := { j1 with
      input := j1.input.drop 4,
      block_len := toInt32 (beDecode (j1.input.take 4)),
      statefn := SigState.s_stronglen } with hj2
    have hval2 : toInt32 (beDecode (j2.input.take 4)) = toInt32 sl := by
      show toInt32 (beDecode ((j1.input.drop 4).take 4)) = toInt32 sl
      rw [hdrop2, be4_take, beDecode_be4 sl hs32]
    have hstep3 : rs_job_step j2 = (RS_CORRUPT, { j2 with input := j2.input.drop 4 }) := by
      unfold rs_job_step
      show rs_loadsig_s_stronglen j2 = _
      refine stronglen_eq_corrupt j2 ?_ ?_
      · show 4 ≤ (j1.input.drop 4).length
        rw [hdrop2]
        exact be4_len sl _
      · rw [hval2]
        exact hbad
    refine ⟨{ j2 with input := j2.input.drop 4 }, ?_, ?_⟩
    · rw [drive_step _ _ hstep1, drive_step _ _ hstep2]
      exact drive_stop _ _ _ hstep3 (by simp)
    · show (j1.input.drop 4).drop 4 = rest
      rw [hdrop2]
      exact be4_drop sl _
  · intro st b hst
    unfold feed1
    rw [if_neg (by rw [hst]; simp)]

/-- Witness for C6: a zero block length is rejected right after the
block-length field, and a strong-sum length of 33 right after the header. -/
theorem corrupt_header_rejected_witness :
    ((0 : Nat) < 2 ^ 32 ∧ (0 : Nat) < 2 ^ 32 ∧ toInt32 0 < 1 ∧
      (∃ j1, runAll (be4 0 ++ be4 0 ++ [5, 6]) = (RS_CORRUPT, j1) ∧ j1.input = [5, 6])) ∧
    ((1 : Nat) ≤ 2 ^ 32 ∧ toInt32 33 ≤ 33 ∧
      (∃ j1, runAll (be4 0 ++ be4 1 ++ be4 33 ++ [7]) = (RS_CORRUPT, j1) ∧
        j1.input = [7])) :=
  ⟨⟨by decide, by decide, by decide,
    corrupt_header_rejected.1 0 0 [5, 6] (by decide) (by decide) (by decide)⟩,
   ⟨by decide, by decide,
    corrupt_header_rejected.2.1 0 1 33 [7] (by decide) (by decide) (by decide)
      (by decide) (by decide)⟩⟩
